import Mathlib

/-! ## repo-mcp: a shallow embedding of `dist/index.js`

The server `RepoMCPServer` exposes seven filesystem tools below one directory,
the repository root.  This file embeds

* the path functions of the host that the server calls (`path.resolve`,
  `path.join`, as Node.js defines them on a POSIX host),
* `getAbsolutePath`, `listDirectory`, `searchFiles`, `getFileInfo` and the
  `CallTool` dispatcher of `setupToolHandlers`,

and states the properties of the specification about them.

JavaScript strings are lists of characters (`Str`).  A value that the source
throws is a `Thrown`; a function that can throw returns `Except Thrown _`.
-/

namespace RepoMcp

/-- A JavaScript string. -/
abbrev Str := List Char

/-- A thrown value: an `Error` object with its `message`, or any other value
with the text `String(value)` gives for it. -/
inductive Thrown where
  | error (message : Str)
  | value (text : Str)
  deriving DecidableEq, Repr

/-! ## The host's `path` module (POSIX) -/

/-- The pieces of a string between the occurrences of `sep`
(`String.prototype.split` with a one-character separator). -/
def splitOnChar (sep : Char) : Str → List Str
  | [] => [[]]
  | c :: cs =>
    if c = sep then [] :: splitOnChar sep cs
    else
      match splitOnChar sep cs with
      | [] => [[c]]
      | s :: ss => (c :: s) :: ss

/-- The pieces joined again with `sep` between them (`Array.prototype.join`). -/
def joinWith (sep : Char) : List Str → Str
  | [] => []
  | [s] => s
  | s :: t :: rest => s ++ sep :: joinWith sep (t :: rest)

/-- What `normalizeString` of Node's `path` module does with one segment.
`res` is the stack of the segments kept so far, the last one first.  An empty
segment and `.` are dropped; `..` removes the last kept segment, unless there is
none or it is itself `..`, in which case `..` is kept when `allowAboveRoot` and
dropped otherwise; any other segment is kept. -/
def normalizeStep (allowAboveRoot : Bool) (res : List Str) (seg : Str) : List Str :=
  if seg = [] ∨ seg = ['.'] then res
  else if seg = ['.', '.'] then
    match res with
    | [] => if allowAboveRoot then [seg] else []
    | last :: before =>
      if last = ['.', '.'] then (if allowAboveRoot then seg :: res else res)
      else before
  else seg :: res

/-- The segments `normalizeString` keeps, in order. -/
def normalizeSegments (allowAboveRoot : Bool) (segs : List Str) : List Str :=
  (segs.foldl (normalizeStep allowAboveRoot) []).reverse

/-- The call `normalizeString(path, allowAboveRoot, '/', isPosixPathSeparator)`. -/
def normalizeString (path : Str) (allowAboveRoot : Bool) : Str :=
  joinWith '/' (normalizeSegments allowAboveRoot (splitOnChar '/' path))

/-- The function `path.posix.normalize`. -/
def normalize (path : Str) : Str :=
  if path = [] then ['.']
  else
    let isAbsolute := path.head? = some '/'
    let trailingSeparator := path.getLast? = some '/'
    let p := normalizeString path (!isAbsolute)
    if p = [] then
      if isAbsolute then ['/'] else if trailingSeparator then ['.', '/'] else ['.']
    else
      let p := if trailingSeparator then p ++ ['/'] else p
      if isAbsolute then '/' :: p else p

/-- The function `path.posix.join` of a list of arguments. -/
def join (args : List Str) : Str :=
  match args.filter (fun a => a ≠ []) with
  | [] => ['.']
  | parts => normalize (joinWith '/' parts)

/-- The loop of `path.posix.resolve`: the arguments are taken from the right
(here: `paths` is the reversed argument list followed by the working directory),
empty ones are skipped, each is put in front of `resolvedPath` with a `/`, and
the loop stops after the first absolute one. -/
def resolveLoop : List Str → Str → Str × Bool
  | [], resolvedPath => (resolvedPath, false)
  | path :: rest, resolvedPath =>
    if path = [] then resolveLoop rest resolvedPath
    else if path.head? = some '/' then (path ++ '/' :: resolvedPath, true)
    else resolveLoop rest (path ++ '/' :: resolvedPath)

/-- The call `path.posix.resolve(...args)` in a process whose working directory is `cwd`. -/
def resolve (cwd : Str) (args : List Str) : Str :=
  let r := resolveLoop (args.reverse ++ [cwd]) []
  let resolvedPath := normalizeString r.1 (!r.2)
  if r.2 then '/' :: resolvedPath
  else if resolvedPath ≠ [] then resolvedPath else ['.']

/-! ## The path resolver -/

/-- The server object, as far as the handlers read it: `this.repoPath`, and the
working directory of the process (which `path.resolve` reads). -/
structure Server where
  repoPath : Str
  cwd : Str

/-- The method `getAbsolutePath(relativePath)` for a string argument. -/
def getAbsolutePath (srv : Server) (relativePath : Str) : Except Thrown Str :=
  let fullPath := resolve srv.cwd [srv.repoPath, relativePath]
  if !(srv.repoPath.isPrefixOf fullPath) then
    throw (Thrown.error "Access denied: Path outside repository".toList)
  else
    pure fullPath

/-! ## Strings of the host -/

/-- The character `c` with an ASCII capital letter replaced by its small letter. -/
def lowerChar (c : Char) : Char :=
  if 65 ≤ c.toNat ∧ c.toNat ≤ 90 then Char.ofNat (c.toNat + 32) else c

/-- The character `c` with an ASCII small letter replaced by its capital letter. -/
def upperChar (c : Char) : Char :=
  if 97 ≤ c.toNat ∧ c.toNat ≤ 122 then Char.ofNat (c.toNat - 32) else c

/-- The method `String.prototype.includes`: `sub` occurs in `s` as a contiguous run. -/
def includes (s sub : Str) : Bool := s.tails.any (fun t => sub.isPrefixOf t)

/-- White space and line terminators of ECMAScript, the characters
`String.prototype.trim` removes. -/
def isWhiteSpace (c : Char) : Bool :=
  [0x9, 0xA, 0xB, 0xC, 0xD, 0x20, 0xA0, 0x1680, 0x2028, 0x2029, 0x202F, 0x205F, 0x3000,
    0xFEFF].contains c.toNat || (0x2000 ≤ c.toNat && c.toNat ≤ 0x200A)

/-- The method `String.prototype.trim`. -/
def trim (s : Str) : Str := ((s.dropWhile isWhiteSpace).reverse.dropWhile isWhiteSpace).reverse

/-- The call `.replace(/\\/g, '/')`: every backslash becomes a forward slash. -/
def toForwardSlashes (s : Str) : Str := s.map (fun c => if c = '\\' then '/' else c)

/-- The call `filePattern.replace(/\*/g, '.*')`. -/
def replaceStars : Str → Str
  | [] => []
  | c :: cs => if c = '*' then '.' :: '*' :: replaceStars cs else c :: replaceStars cs

/-! ## Regular expressions of the host

`searchFiles` builds `new RegExp(pattern + '$')` and calls `test` on file names.
The sources made of ordinary characters, `.` and `.*` are given their meaning
here; for every other source the host's engine is a parameter. -/

/-- The UTF-16 code units of a character: a regular expression without the `u`
flag works on code units. -/
def codeUnits (c : Char) : List Nat :=
  if c.toNat < 0x10000 then [c.toNat]
  else [0xD800 + (c.toNat - 0x10000) / 0x400, 0xDC00 + (c.toNat - 0x10000) % 0x400]

/-- The UTF-16 code units of a string. -/
def utf16 : Str → List Nat
  | [] => []
  | c :: cs => codeUnits c ++ utf16 cs

/-- The parts of a simple regular expression. -/
inductive Atom where
  | lit (unit : Nat)
  | any
  | anyStar
  deriving DecidableEq, Repr

/-- The characters with a meaning of their own in a regular expression. -/
def isSyntaxChar (c : Char) : Bool := "\\^$.*+?()[]{}|".toList.contains c

/-- The atoms of a source that ends in `$` and is otherwise made of ordinary
characters, `.` and `.*`; `none` for any other source. -/
def parseSimple : Str → Option (List Atom)
  | [] => none
  | ['$'] => some []
  | '.' :: '*' :: rest => (parseSimple rest).map (Atom.anyStar :: ·)
  | '.' :: rest => (parseSimple rest).map (Atom.any :: ·)
  | c :: rest =>
    if isSyntaxChar c then none
    else (parseSimple rest).map ((codeUnits c).map Atom.lit ++ ·)

/-- The code units `.` does not match: the line terminators. -/
def isLineTerminator (u : Nat) : Bool := u = 0xA || u = 0xD || u = 0x2028 || u = 0x2029

/-- The atom `.*` followed by the rest `k` of the expression, on the code units `us`. -/
def matchStar (k : List Nat → Bool) : List Nat → Bool
  | [] => k []
  | u :: us => k (u :: us) || (!isLineTerminator u && matchStar k us)

/-- The atoms, followed by the end of the input, match all of `us`. -/
def matchHere : List Atom → List Nat → Bool
  | [], us => us.isEmpty
  | Atom.lit _ :: _, [] => false
  | Atom.lit v :: rest, u :: us => u = v && matchHere rest us
  | Atom.any :: _, [] => false
  | Atom.any :: rest, u :: us => !isLineTerminator u && matchHere rest us
  | Atom.anyStar :: rest, us => matchStar (matchHere rest) us

/-- The call `regex.test(name)` for the expression with these atoms and a final `$`: the
match may start at any code unit of the name. -/
def testAtoms (atoms : List Atom) (name : Str) : Bool :=
  (utf16 name).tails.any (matchHere atoms)

/-- The expression `new RegExp(source)` as the function `test` of the result, or the
`SyntaxError` it throws.  `hostRegExp` is the engine of the host, asked for the
sources that are not simple. -/
def newRegExp (hostRegExp : Str → Except Thrown (Str → Bool)) (source : Str) :
    Except Thrown (Str → Bool) :=
  match parseSimple source with
  | some atoms => pure (testAtoms atoms)
  | none => hostRegExp source

/-! ## The directory tree -/

mutual
/-- A directory entry as `fs.readdir(_, { withFileTypes: true })` reports it,
with what reading it gives: a regular file and the text `fs.readFile(_, 'utf-8')`
returns (`none` when that call throws), a directory and its listing, or an entry
that is neither (`isDirectory()` and `isFile()` both false: a symbolic link, a
socket, a pipe, a device). -/
inductive Node where
  | file (name : Str) (content : Option Str)
  | directory (name : Str) (listing : Listing)
  | other (name : Str)
/-- What `fs.readdir` does on a directory: it throws, or it returns the entries
in the order of the enumeration. -/
inductive Listing where
  | fails (err : Thrown)
  | items (entries : List Node)
end

/-- The field `name` of a directory entry. -/
def Node.name : Node → Str
  | .file name _ => name
  | .directory name _ => name
  | .other name => name

/-- The method `isDirectory()` of a directory entry. -/
def Node.isDirectory : Node → Bool
  | .directory _ _ => true
  | _ => false

/-! ## `searchFiles` -/

/-- One element of the `results` array of `searchFiles`. -/
structure SearchResult where
  file : Str
  line : Nat
  content : Str
  deriving DecidableEq, Repr

/-- The names `searchInDirectory` does not descend into. -/
def prunedNames : List Str :=
  ["node_modules".toList, ".git".toList, "dist".toList, "build".toList, ".next".toList]

/-- What decides the matches of a search: the host's regular expression engine,
the host's `String.prototype.toLowerCase`, the query (`none` when the argument
is not a string) and the file pattern (`none` when the argument is absent). -/
structure Criteria where
  hostRegExp : Str → Except Thrown (Str → Bool)
  toLowerCase : Str → Str
  query : Option Str
  filePattern : Option Str

/-- What is fixed during one call of `searchFiles`: the criteria and
`maxResults`, with its default already applied. -/
structure Search extends Criteria where
  maxResults : Nat

/-- The callback of `lines.forEach` run over the lines from index `index` on:
once `results` has reached `maxResults` the callback returns at once for each
remaining line; otherwise a line that contains the query, both lower-cased, is
pushed with its 1-based number and its trimmed content. -/
def forEachLine (maxResults : Nat) (toLowerCase : Str → Str) (query file : Str) :
    List Str → Nat → List SearchResult → List SearchResult
  | [], _, results => results
  | line :: rest, index, results =>
    if results.length ≥ maxResults then
      forEachLine maxResults toLowerCase query file rest (index + 1) results
    else if includes (toLowerCase line) (toLowerCase query) then
      forEachLine maxResults toLowerCase query file rest (index + 1)
        (results ++ [{ file := file, line := index + 1, content := trim line }])
    else forEachLine maxResults toLowerCase query file rest (index + 1) results

/-- The `try` block of `searchInDirectory` on one file: the file is read and
split on `\n` and the lines are visited.  When reading throws the `catch` block
skips the file.  When `query` is not a string, `query.toLowerCase()` throws at
the first line visited, before anything is pushed, and the file is skipped as
well. -/
def searchFileContent (s : Search) (content : Option Str) (itemRelativePath : Str)
    (results : List SearchResult) : List SearchResult :=
  match content, s.query with
  | some text, some query =>
    forEachLine s.maxResults s.toLowerCase query itemRelativePath (splitOnChar '\n' text) 0
      results
  | _, _ => results

/-- The pattern test of `searchInDirectory` on a file name: `none` when there is
no pattern (`undefined` or the empty string), otherwise the result of
`new RegExp(pattern + '$').test(name)`, or what `new RegExp` throws. -/
def patternTest (s : Criteria) (name : Str) : Except Thrown (Option Bool) :=
  match s.filePattern with
  | none => pure none
  | some filePattern =>
    if filePattern = [] then pure none
    else
      match newRegExp s.hostRegExp (replaceStars filePattern ++ ['$']) with
      | .error e => throw e
      | .ok test => pure (some (test name))

mutual
/-- The function `searchInDirectory(dirPath, relativePath)`, with the array `results` passed
in and out. -/
def searchInDirectory (s : Search) : Listing → Str → List SearchResult →
    Except Thrown (List SearchResult)
  | listing, relativePath, results =>
    if results.length ≥ s.maxResults then pure results
    else
      match listing with
      | .fails err => throw err
      | .items entries => searchItems s entries relativePath results
/-- The loop `for (const item of items)`. -/
def searchItems (s : Search) : List Node → Str → List SearchResult →
    Except Thrown (List SearchResult)
  | [], _, results => pure results
  | item :: rest, relativePath, results =>
    if results.length ≥ s.maxResults then pure results
    else
      match searchItem s item relativePath results with
      | .error e => throw e
      | .ok results => searchItems s rest relativePath results
/-- The body of the loop for one item. -/
def searchItem (s : Search) : Node → Str → List SearchResult →
    Except Thrown (List SearchResult)
  | .directory name listing, relativePath, results =>
    let itemRelativePath := toForwardSlashes (join [relativePath, name])
    if !(prunedNames.contains name) then searchInDirectory s listing itemRelativePath results
    else pure results
  | .file name content, relativePath, results =>
    let itemRelativePath := toForwardSlashes (join [relativePath, name])
    match patternTest s.toCriteria name with
    | .error e => throw e
    | .ok (some false) => pure results
    | .ok _ => pure (searchFileContent s content itemRelativePath results)
  | .other _, _, results => pure results
end

/-- The array `results` at the end of
`searchFiles(query, filePattern, maxResults)`, on a repository root with the
listing `root`, in a host with the regular expression engine `hostRegExp` and
the lower-casing `toLowerCase`; `maxResults = none` is an omitted argument. -/
def searchFiles (hostRegExp : Str → Except Thrown (Str → Bool)) (toLowerCase : Str → Str)
    (root : Listing) (query : Option Str) (filePattern : Option Str)
    (maxResults : Option Nat) : Except Thrown (List SearchResult) :=
  searchInDirectory
    { hostRegExp := hostRegExp, toLowerCase := toLowerCase, query := query,
      filePattern := filePattern, maxResults := maxResults.getD 20 }
    root [] []

/-! ## The file system of the host and the result envelope -/

/-- The fields of `fs.Stats` that `getFileInfo` reads; the two dates are held as
the text `toISOString()` gives for them. -/
structure Stats where
  isDirectory : Bool
  size : Nat
  birthtime : Str
  mtime : Str
  mode : Nat

/-- The values handed to `JSON.stringify`. -/
inductive Json where
  | str (s : Str)
  | num (n : Nat)
  | arr (elems : List Json)
  | obj (fields : List (Str × Json))

/-- The host: the calls of `fs-extra` on a file system state `σ`, the regular
expression engine, `String.prototype.toLowerCase` and `JSON.stringify(_, null, 2)`.  A call that changes the
file system returns the new state also when it throws. -/
structure Host (σ : Type) where
  pathExists : σ → Str → Bool
  readFile : σ → Str → Except Thrown Str
  readdir : σ → Str → Listing
  stat : σ → Str → Except Thrown Stats
  writeFile : σ → Str → Option Str → Except Thrown Unit × σ
  ensureDir : σ → Str → Except Thrown Unit × σ
  remove : σ → Str → Except Thrown Unit × σ
  hostRegExp : Str → Except Thrown (Str → Bool)
  toLowerCase : Str → Str
  stringify : Json → Str

/-- One element of `content` in a tool result. -/
structure ContentItem where
  type : Str
  text : Str
  deriving DecidableEq, Repr

/-- A tool result. -/
structure Envelope where
  content : List ContentItem
  deriving DecidableEq, Repr

/-- The object literal every handler returns: one item of type `text`. -/
def textResult (text : Str) : Envelope :=
  { content := [{ type := "text".toList, text := text }] }

/-- A value inside a template literal: `undefined` is printed as that word. -/
def templateText : Option Str → Str
  | none => "undefined".toList
  | some s => s

/-- What `path.resolve` throws for an argument that is not a string. -/
def invalidPathArgument : Thrown :=
  Thrown.error "The \"paths[1]\" argument must be of type string. Received undefined".toList

/-- The method `getAbsolutePath(relativePath)` for an argument that may be `undefined`. -/
def getAbsolutePathArg (srv : Server) : Option Str → Except Thrown Str
  | none => throw invalidPathArgument
  | some relativePath => getAbsolutePath srv relativePath

/-- The function `path.posix.dirname`. -/
def dirname (path : Str) : Str :=
  if path = [] then ['.']
  else
    let hasRoot := path.head? = some '/'
    let rest := ((path.drop 1).reverse.dropWhile (· = '/')).dropWhile (· ≠ '/')
    match rest with
    | [] => if hasRoot then ['/'] else ['.']
    | _ :: before =>
      if hasRoot ∧ before = [] then ['/', '/'] else path.take (before.length + 1)

/-! ## The handlers -/

/-- The handler `readFile(relativePath)`. -/
def readFile {σ : Type} (host : Host σ) (srv : Server) (st : σ) (relativePath : Option Str) :
    Except Thrown Envelope × σ :=
  match getAbsolutePathArg srv relativePath with
  | .error e => (throw e, st)
  | .ok fullPath =>
    if !(host.pathExists st fullPath) then
      (throw (Thrown.error ("File not found: ".toList ++ templateText relativePath)), st)
    else
      match host.readFile st fullPath with
      | .error e => (throw e, st)
      | .ok content => (pure (textResult content), st)

/-- The handler `writeFile(relativePath, content)`. -/
def writeFile {σ : Type} (host : Host σ) (srv : Server) (st : σ) (relativePath : Option Str)
    (content : Option Str) : Except Thrown Envelope × σ :=
  match getAbsolutePathArg srv relativePath with
  | .error e => (throw e, st)
  | .ok fullPath =>
    match host.ensureDir st (dirname fullPath) with
    | (.error e, st) => (throw e, st)
    | (.ok _, st) =>
      match host.writeFile st fullPath content with
      | (.error e, st) => (throw e, st)
      | (.ok _, st) =>
        (pure (textResult ("Successfully wrote to ".toList ++ templateText relativePath)), st)

/-- One element of the array `listDirectory` builds. -/
structure DirectoryEntry where
  name : Str
  type : Str
  path : Str
  deriving DecidableEq, Repr

/-- The expression `relativePath || alt`: `undefined` and the empty string give `alt`. -/
def orElse (relativePath : Option Str) (alt : Str) : Str :=
  match relativePath with
  | none => alt
  | some p => if p = [] then alt else p

/-- The callback of `items.map` in `listDirectory`. -/
def toDirectoryEntry (relativePath : Option Str) (item : Node) : DirectoryEntry :=
  { name := item.name
    type := if item.isDirectory then "directory".toList else "file".toList
    path := toForwardSlashes (join [orElse relativePath [], item.name]) }

/-- The array `result` of `listDirectory(relativePath)`, or what it throws. -/
def listDirectoryEntries {σ : Type} (host : Host σ) (srv : Server) (st : σ)
    (relativePath : Option Str) : Except Thrown (List DirectoryEntry) :=
  match getAbsolutePath srv (orElse relativePath ['.']) with
  | .error e => throw e
  | .ok fullPath =>
    if !(host.pathExists st fullPath) then
      throw (Thrown.error ("Directory not found: ".toList ++ templateText relativePath))
    else
      match host.readdir st fullPath with
      | .fails err => throw err
      | .items items => pure (items.map (toDirectoryEntry relativePath))

/-- The object `JSON.stringify` sees for a directory entry. -/
def DirectoryEntry.toJson (e : DirectoryEntry) : Json :=
  .obj [("name".toList, .str e.name), ("type".toList, .str e.type), ("path".toList, .str e.path)]

/-- The handler `listDirectory(relativePath)`. -/
def listDirectory {σ : Type} (host : Host σ) (srv : Server) (st : σ)
    (relativePath : Option Str) : Except Thrown Envelope × σ :=
  match listDirectoryEntries host srv st relativePath with
  | .error e => (throw e, st)
  | .ok result => (pure (textResult (host.stringify (.arr (result.map DirectoryEntry.toJson)))), st)

/-- The handler `createDirectory(relativePath)`. -/
def createDirectory {σ : Type} (host : Host σ) (srv : Server) (st : σ)
    (relativePath : Option Str) : Except Thrown Envelope × σ :=
  match getAbsolutePathArg srv relativePath with
  | .error e => (throw e, st)
  | .ok fullPath =>
    match host.ensureDir st fullPath with
    | (.error e, st) => (throw e, st)
    | (.ok _, st) =>
      (pure (textResult ("Successfully created directory: ".toList ++ templateText relativePath)),
        st)

/-- The handler `deleteFile(relativePath)`. -/
def deleteFile {σ : Type} (host : Host σ) (srv : Server) (st : σ) (relativePath : Option Str) :
    Except Thrown Envelope × σ :=
  match getAbsolutePathArg srv relativePath with
  | .error e => (throw e, st)
  | .ok fullPath =>
    if !(host.pathExists st fullPath) then
      (throw (Thrown.error ("File not found: ".toList ++ templateText relativePath)), st)
    else
      match host.remove st fullPath with
      | (.error e, st) => (throw e, st)
      | (.ok _, st) =>
        (pure (textResult ("Successfully deleted: ".toList ++ templateText relativePath)), st)

/-- The object `JSON.stringify` sees for a search result. -/
def SearchResult.toJson (r : SearchResult) : Json :=
  .obj [("file".toList, .str r.file), ("line".toList, .num r.line),
    ("content".toList, .str r.content)]

/-- The method `searchFiles(query, filePattern, maxResults)` as a handler: the search runs
on the listing of `this.repoPath`. -/
def searchFilesTool {σ : Type} (host : Host σ) (srv : Server) (st : σ) (query : Option Str)
    (filePattern : Option Str) (maxResults : Option Nat) : Except Thrown Envelope × σ :=
  match searchFiles host.hostRegExp host.toLowerCase (host.readdir st srv.repoPath) query
      filePattern maxResults with
  | .error e => (throw e, st)
  | .ok results => (pure (textResult (host.stringify (.arr (results.map SearchResult.toJson)))), st)

/-- The field `permissions` of `getFileInfo`:
`'0' + (stats.mode & parseInt('777', 8)).toString(8)`. -/
def permissions (mode : Nat) : Str := '0' :: Nat.toDigits 8 (mode &&& 511)

/-- The object `info` of `getFileInfo`. -/
structure FileInfo where
  path : Str
  type : Str
  size : Nat
  created : Str
  modified : Str
  permissions : Str
  deriving DecidableEq, Repr

/-- The object `info` that `getFileInfo(relativePath)` builds from the result of
`fs.stat`. -/
def fileInfo (relativePath : Str) (stats : Stats) : FileInfo :=
  { path := relativePath
    type := if stats.isDirectory then "directory".toList else "file".toList
    size := stats.size
    created := stats.birthtime
    modified := stats.mtime
    permissions := permissions stats.mode }

/-- The object `JSON.stringify` sees for `info`. -/
def FileInfo.toJson (i : FileInfo) : Json :=
  .obj [("path".toList, .str i.path), ("type".toList, .str i.type), ("size".toList, .num i.size),
    ("created".toList, .str i.created), ("modified".toList, .str i.modified),
    ("permissions".toList, .str i.permissions)]

/-- The handler `getFileInfo(relativePath)`. -/
def getFileInfo {σ : Type} (host : Host σ) (srv : Server) (st : σ)
    (relativePath : Option Str) : Except Thrown Envelope × σ :=
  match relativePath with
  | none => (throw invalidPathArgument, st)
  | some relativePath =>
    match getAbsolutePath srv relativePath with
    | .error e => (throw e, st)
    | .ok fullPath =>
      if !(host.pathExists st fullPath) then
        (throw (Thrown.error ("Path not found: ".toList ++ relativePath)), st)
      else
        match host.stat st fullPath with
        | .error e => (throw e, st)
        | .ok stats => (pure (textResult (host.stringify (fileInfo relativePath stats).toJson)), st)

/-! ## The `CallTool` dispatcher -/

/-- The argument bag of a tool call; a field is `none` when it is absent. -/
structure Args where
  path : Option Str
  content : Option Str
  query : Option Str
  file_pattern : Option Str
  max_results : Option Nat

/-- The `try` block of the `CallTool` handler: the check of the argument bag
and the `switch` on the tool name. -/
def dispatch {σ : Type} (host : Host σ) (srv : Server) (st : σ) (name : Str)
    (args : Option Args) : Except Thrown Envelope × σ :=
  match args with
  | none => (throw (Thrown.error "No arguments provided".toList), st)
  | some args =>
    if name = "read_file".toList then readFile host srv st args.path
    else if name = "write_file".toList then writeFile host srv st args.path args.content
    else if name = "list_directory".toList then listDirectory host srv st args.path
    else if name = "create_directory".toList then createDirectory host srv st args.path
    else if name = "delete_file".toList then deleteFile host srv st args.path
    else if name = "search_files".toList then
      searchFilesTool host srv st args.query args.file_pattern args.max_results
    else if name = "get_file_info".toList then getFileInfo host srv st args.path
    else (throw (Thrown.error ("Unknown tool: ".toList ++ name)), st)

/-- The text of the `catch` block:
`error instanceof Error ? error.message : String(error)`. -/
def thrownText : Thrown → Str
  | .error message => message
  | .value text => text

/-- The `CallTool` handler: the `try` block, and the `catch` block that turns a
thrown value into a result. -/
def callTool {σ : Type} (host : Host σ) (srv : Server) (st : σ) (name : Str)
    (args : Option Args) : Envelope × σ :=
  match dispatch host srv st name args with
  | (.ok result, st) => (result, st)
  | (.error e, st) => (textResult ("Error: ".toList ++ thrownText e), st)

/-! ## The search without a bound

The second description of the search, from the words of the specification: all
the matches, depth first in the order of the enumeration, and in the order of
the lines within a file. -/

/-- The matches in the lines of one file, the first of them with index `index`:
one entry for each line that contains the query, both lower-cased, with the
1-based number of the line and its trimmed content. -/
def matchingLines (toLowerCase : Str → Str) (query file : Str) :
    List Str → Nat → List SearchResult
  | [], _ => []
  | line :: rest, index =>
    if includes (toLowerCase line) (toLowerCase query) then
      { file := file, line := index + 1, content := trim line } ::
        matchingLines toLowerCase query file rest (index + 1)
    else matchingLines toLowerCase query file rest (index + 1)

/-- The matches in one file that passed the pattern: none when it cannot be read
as text (or when the query is not a string). -/
def fileMatches (s : Criteria) (content : Option Str) (itemRelativePath : Str) :
    List SearchResult :=
  match content, s.query with
  | some text, some query =>
    matchingLines s.toLowerCase query itemRelativePath (splitOnChar '\n' text) 0
  | _, _ => []

mutual
/-- All the matches below a directory, when every directory reached can be
listed and the pattern is a regular expression. -/
def allMatchesIn (s : Criteria) : Listing → Str → Except Thrown (List SearchResult)
  | .fails err, _ => throw err
  | .items entries, relativePath => allMatchesItems s entries relativePath
/-- All the matches of the entries of one directory, entry after entry. -/
def allMatchesItems (s : Criteria) : List Node → Str → Except Thrown (List SearchResult)
  | [], _ => pure []
  | item :: rest, relativePath =>
    match allMatchesItem s item relativePath with
    | .error e => throw e
    | .ok first =>
      match allMatchesItems s rest relativePath with
      | .error e => throw e
      | .ok others => pure (first ++ others)
/-- All the matches of one entry: those below it for a directory that is not
pruned, those of its lines for a file that passes the pattern. -/
def allMatchesItem (s : Criteria) : Node → Str → Except Thrown (List SearchResult)
  | .directory name listing, relativePath =>
    if prunedNames.contains name then pure []
    else allMatchesIn s listing (toForwardSlashes (join [relativePath, name]))
  | .file name content, relativePath =>
    match patternTest s name with
    | .error e => throw e
    | .ok (some false) => pure []
    | .ok _ => pure (fileMatches s content (toForwardSlashes (join [relativePath, name])))
  | .other _, _ => pure []
end

/-- All the matches of a search from the repository root. -/
def allMatches (hostRegExp : Str → Except Thrown (Str → Bool)) (toLowerCase : Str → Str)
    (root : Listing) (query : Option Str) (filePattern : Option Str) :
    Except Thrown (List SearchResult) :=
  allMatchesIn
    { hostRegExp := hostRegExp, toLowerCase := toLowerCase, query := query,
      filePattern := filePattern }
    root []

/-! ## Definitions used to state the properties -/

/-- A segment that `normalizeString` keeps as it is: not empty, not `.` and not
`..`. -/
def isPlain (seg : Str) : Bool := seg ≠ [] && seg ≠ ['.'] && seg ≠ ['.', '.']

/-- A name as `fs.readdir` returns it: not empty, not `.`, not `..` and without
a `/`. -/
def isEntryName (name : Str) : Bool := isPlain name && !name.contains '/'

/-- A path lies within the root: it is the root, or the root followed by a
separator and more. -/
def isWithin (root fullPath : Str) : Bool :=
  fullPath = root || (root ++ ['/']).isPrefixOf fullPath

/-- The lower-case letter of a character below U+0100, as
`String.prototype.toLowerCase` gives it: the capitals `A` to `Z` and U+00C0 to
U+00DE, without the multiplication sign U+00D7, move up by 32; a character
from U+0100 on is kept. -/
def latin1LowerChar (c : Char) : Char :=
  if (65 ≤ c.toNat ∧ c.toNat ≤ 90) ∨ (192 ≤ c.toNat ∧ c.toNat ≤ 222 ∧ c.toNat ≠ 215) then
    Char.ofNat (c.toNat + 32)
  else c

/-- The lower-casing of the host on the strings whose characters are all below
U+0100; it is the one used where a search is evaluated on such strings. -/
def latin1ToLowerCase (s : Str) : Str := s.map latin1LowerChar

/-- A regular expression engine that rejects every source handed to it; the
simple sources never reach it. -/
def rejectAll : Str → Except Thrown (Str → Bool) :=
  fun _ => throw (Thrown.error "Invalid regular expression".toList)

/-- A character is one of the octal digits. -/
def isOctalDigit (c : Char) : Bool := 48 ≤ c.toNat && c.toNat ≤ 55

/-- The number a string of octal digits writes. -/
def octalValue (s : Str) : Nat := s.foldl (fun acc c => 8 * acc + (c.toNat - 48)) 0

/-- Two strings that differ in the case of ASCII letters only: at each position
the second has the character of the first, or its capital, or its small
letter. -/
def AsciiCaseVariant (a b : Str) : Prop :=
  List.Forall₂ (fun x y => y = x ∨ y = upperChar x ∨ y = lowerChar x) a b

/-- The upper-case form, as `String.prototype.toUpperCase` gives it, of a string
made of ASCII characters and of U+00DF, the small sharp s, for which it writes
`SS`. -/
def sharpSToUpperCase : Str → Str
  | [] => []
  | c :: cs =>
    if c.toNat = 0xDF then 'S' :: 'S' :: sharpSToUpperCase cs
    else upperChar c :: sharpSToUpperCase cs

/-- The reply `reply` answers the outcome of a handler as the specification
requires: it is the handler's own result when the handler returns, and when the
handler throws it is one content item of type `text` whose text is `Error: `
followed by the message of the error (for a thrown value that is not an
`Error`, by the string of that value). -/
def Answers (reply : Envelope) : Except Thrown Envelope → Prop
  | .ok result => reply = result
  | .error (.error message) =>
    reply = { content := [{ type := "text".toList, text := "Error: ".toList ++ message }] }
  | .error (.value text) =>
    reply = { content := [{ type := "text".toList, text := "Error: ".toList ++ text }] }

/-- An argument bag with the field `path` only. -/
def pathArgs (path : Str) : Args :=
  { path := some path, content := none, query := none, file_pattern := none,
    max_results := none }

/-- A host in which no path exists. -/
def absentHost : Host Unit :=
  { pathExists := fun _ _ => false
    readFile := fun _ _ => throw (Thrown.error "ENOENT".toList)
    readdir := fun _ _ => .fails (Thrown.error "ENOENT".toList)
    stat := fun _ _ => throw (Thrown.error "ENOENT".toList)
    writeFile := fun st _ _ => (pure (), st)
    ensureDir := fun st _ => (pure (), st)
    remove := fun st _ => (pure (), st)
    hostRegExp := rejectAll
    toLowerCase := latin1ToLowerCase
    stringify := fun _ => [] }

/-- Every character of the string is an ASCII character. -/
def IsAscii (s : Str) : Prop := ∀ c ∈ s, c.toNat < 128

/-- The string `content` is `line` without its leading and trailing white space:
`line` is `content` between two runs of white space, and `content` neither
starts nor ends with white space. -/
def IsTrimOf (line content : Str) : Prop :=
  ∃ before after, line = before ++ content ++ after ∧
    (∀ c ∈ before, isWhiteSpace c = true) ∧ (∀ c ∈ after, isWhiteSpace c = true) ∧
    (∀ c, content.head? = some c → isWhiteSpace c = false) ∧
    (∀ c, content.getLast? = some c → isWhiteSpace c = false)

/-- The directory components of a reported path: its segments but the last. -/
def directoryComponents (file : Str) : List Str := (splitOnChar '/' file).dropLast

mutual
/-- The listing with the content of every pruned directory removed. -/
def pruneListing : Listing → Listing
  | .fails err => .fails err
  | .items entries => .items (pruneItems entries)
/-- The entries with the content of every pruned directory removed. -/
def pruneItems : List Node → List Node
  | [] => []
  | item :: rest => pruneItem item :: pruneItems rest
/-- The entry with the content of every pruned directory removed. -/
def pruneItem : Node → Node
  | .directory name listing =>
    if prunedNames.contains name then .directory name (.items [])
    else .directory name (pruneListing listing)
  | .file name content => .file name content
  | .other name => .other name
end

/-- A name as `fs.readdir` returns it that has no backslash. -/
def isPlainEntryName (name : Str) : Bool := isEntryName name && !name.contains '\\'

mutual
/-- Every name in the listing satisfies `p`. -/
def listingNamesAll (p : Str → Bool) : Listing → Bool
  | .fails _ => true
  | .items entries => itemsNamesAll p entries
/-- Every name in and below the entries satisfies `p`. -/
def itemsNamesAll (p : Str → Bool) : List Node → Bool
  | [] => true
  | item :: rest => itemNamesAll p item && itemsNamesAll p rest
/-- Every name in and below the entry satisfies `p`. -/
def itemNamesAll (p : Str → Bool) : Node → Bool
  | .directory name listing => p name && listingNamesAll p listing
  | .file name _ => p name
  | .other name => p name
end

/-- The path of `child` relative to `root`, both absolute: the segments of the
child that follow those of the root, joined with `/`; `none` when the child is
not the root or below it. -/
def relativeTo (root child : Str) : Option Str :=
  let r := normalizeSegments false (splitOnChar '/' root)
  let c := normalizeSegments false (splitOnChar '/' child)
  if r.isPrefixOf c then some (joinWith '/' (c.drop r.length)) else none

/-- A host in which every path exists and every directory has the listing
`listing`. -/
def constantHost (listing : Listing) : Host Unit :=
  { pathExists := fun _ _ => true
    readFile := fun _ _ => pure []
    readdir := fun _ _ => listing
    stat := fun _ _ => pure { isDirectory := true, size := 0, birthtime := [], mtime := [], mode := 0 }
    writeFile := fun st _ _ => (pure (), st)
    ensureDir := fun st _ => (pure (), st)
    remove := fun st _ => (pure (), st)
    hostRegExp := rejectAll
    toLowerCase := latin1ToLowerCase
    stringify := fun _ => [] }

/-- A small repository: two files and a subdirectory with one file. -/
def sampleTree : Listing :=
  .items [
    .file "a.txt".toList (some "Hello\n  hello world \nbye".toList),
    .directory "b".toList (.items [.file "c.md".toList (some "say hello".toList)]),
    .file "d.txt".toList none]

/-! ## Lemmas on the search -/

theorem forEachLine_eq (maxResults : Nat) (toLowerCase : Str → Str) (query file : Str)
    (lines : List Str) :
    ∀ (index : Nat) (results : List SearchResult),
      forEachLine maxResults toLowerCase query file lines index results =
        results ++ (matchingLines toLowerCase query file lines index).take
          (maxResults - results.length) := by
  induction lines with
  | nil => intro index results; simp [forEachLine, matchingLines]
  | cons line rest ih =>
    intro index results
    by_cases hfull : results.length ≥ maxResults
    · have h0 : maxResults - results.length = 0 := by omega
      simp [forEachLine, hfull, ih, h0]
    · obtain ⟨n, hn⟩ : ∃ n, maxResults - results.length = n + 1 := ⟨maxResults - results.length - 1, by omega⟩
      by_cases hm : includes (toLowerCase line) (toLowerCase query) = true
      · have h1 : maxResults - (results.length + 1) = n := by omega
        simp [forEachLine, matchingLines, hfull, hm, ih, hn, h1]
      · simp [forEachLine, matchingLines, hfull, hm, ih, hn]

theorem searchFileContent_eq (s : Search) (content : Option Str) (path : Str)
    (results : List SearchResult) :
    searchFileContent s content path results =
      results ++ (fileMatches s.toCriteria content path).take (s.maxResults - results.length) := by
  unfold searchFileContent fileMatches
  split <;> simp [forEachLine_eq]

theorem take_append_take {α : Type} (a b : List α) (n : Nat) :
    a.take n ++ b.take (n - (a.take n).length) = (a ++ b).take n := by
  rw [List.take_append_eq_append_take, List.length_take]
  by_cases h : a.length ≤ n
  · rw [Nat.min_eq_right h]
  · have h1 : n - min n a.length = 0 := by omega
    have h2 : n - a.length = 0 := by omega
    rw [h1, h2]

mutual
theorem searchInDirectory_eq (s : Search) : ∀ (listing : Listing) (rel : Str)
    (results ms : List SearchResult), allMatchesIn s.toCriteria listing rel = .ok ms →
    searchInDirectory s listing rel results =
      .ok (results ++ ms.take (s.maxResults - results.length))
  | .fails err, rel, results, ms, h => by simp [allMatchesIn, throw, throwThe, MonadExceptOf.throw] at h
  | .items entries, rel, results, ms, h => by
    have ih := searchItems_eq s entries rel results ms (by simpa [allMatchesIn] using h)
    by_cases hfull : results.length ≥ s.maxResults
    · have h0 : s.maxResults - results.length = 0 := by omega
      simp [searchInDirectory, hfull, h0, pure, Except.pure]
    · simp [searchInDirectory, hfull, ih]
theorem searchItems_eq (s : Search) : ∀ (entries : List Node) (rel : Str)
    (results ms : List SearchResult), allMatchesItems s.toCriteria entries rel = .ok ms →
    searchItems s entries rel results = .ok (results ++ ms.take (s.maxResults - results.length))
  | [], rel, results, ms, h => by
    simp [allMatchesItems, pure, Except.pure] at h
    subst h
    simp [searchItems, pure, Except.pure]
  | item :: rest, rel, results, ms, h => by
    unfold allMatchesItems at h
    split at h
    · simp [throw, throwThe, MonadExceptOf.throw] at h
    · rename_i first hfirst
      split at h
      · simp [throw, throwThe, MonadExceptOf.throw] at h
      · rename_i others hothers
        simp only [pure, Except.pure, Except.ok.injEq] at h
        subst h
        by_cases hfull : results.length ≥ s.maxResults
        · have h0 : s.maxResults - results.length = 0 := by omega
          simp [searchItems, hfull, h0, pure, Except.pure]
        · have h1 := searchItem_eq s item rel results first hfirst
          have h2 := searchItems_eq s rest rel
            (results ++ first.take (s.maxResults - results.length)) others hothers
          have h3 : s.maxResults - (results ++ first.take (s.maxResults - results.length)).length
              = (s.maxResults - results.length)
                - (first.take (s.maxResults - results.length)).length := by
            simp only [List.length_append]; omega
          rw [h3] at h2
          simp only [searchItems, hfull, if_false, h1, h2, List.append_assoc, take_append_take]
theorem searchItem_eq (s : Search) : ∀ (item : Node) (rel : Str)
    (results ms : List SearchResult), allMatchesItem s.toCriteria item rel = .ok ms →
    searchItem s item rel results = .ok (results ++ ms.take (s.maxResults - results.length))
  | .directory name listing, rel, results, ms, h => by
    by_cases hp : name ∈ prunedNames
    · simp [allMatchesItem, hp, pure, Except.pure] at h
      subst h
      simp [searchItem, hp, pure, Except.pure]
    · simp [allMatchesItem, hp] at h
      have ih := searchInDirectory_eq s listing _ results ms h
      simp [searchItem, hp, ih]
  | .file name content, rel, results, ms, h => by
    unfold allMatchesItem at h
    split at h
    · simp [throw, throwThe, MonadExceptOf.throw] at h
    · rename_i hpt
      simp only [pure, Except.pure, Except.ok.injEq] at h
      subst h
      simp [searchItem, hpt, pure, Except.pure]
    · rename_i r hne hpt
      simp only [pure, Except.pure, Except.ok.injEq] at h
      subst h
      cases r with
      | none => simp [searchItem, hpt, pure, Except.pure, searchFileContent_eq]
      | some b =>
        cases b with
        | false => exact absurd rfl hne
        | true => simp [searchItem, hpt, pure, Except.pure, searchFileContent_eq]
  | .other name, rel, results, ms, h => by
    simp [allMatchesItem, pure, Except.pure] at h
    subst h
    simp [searchItem, pure, Except.pure]
end

/-! ## Lemmas on the handlers -/

theorem readFile_ok {σ : Type} (host : Host σ) (srv : Server) (st : σ) (p : Option Str)
    (r : Envelope) (h : (readFile host srv st p).1 = .ok r) : ∃ text, r = textResult text := by
  unfold readFile at h
  repeat' split at h
  all_goals simp_all [throw, throwThe, MonadExceptOf.throw, pure, Except.pure]
  all_goals exact ⟨_, h.symm⟩

theorem writeFile_ok {σ : Type} (host : Host σ) (srv : Server) (st : σ) (p c : Option Str)
    (r : Envelope) (h : (writeFile host srv st p c).1 = .ok r) : ∃ text, r = textResult text := by
  unfold writeFile at h
  repeat' split at h
  all_goals simp_all [throw, throwThe, MonadExceptOf.throw, pure, Except.pure]
  all_goals exact ⟨_, h.symm⟩

theorem listDirectory_ok {σ : Type} (host : Host σ) (srv : Server) (st : σ) (p : Option Str)
    (r : Envelope) (h : (listDirectory host srv st p).1 = .ok r) : ∃ text, r = textResult text := by
  unfold listDirectory at h
  repeat' split at h
  all_goals simp_all [throw, throwThe, MonadExceptOf.throw, pure, Except.pure]
  all_goals exact ⟨_, h.symm⟩

theorem createDirectory_ok {σ : Type} (host : Host σ) (srv : Server) (st : σ) (p : Option Str)
    (r : Envelope) (h : (createDirectory host srv st p).1 = .ok r) :
    ∃ text, r = textResult text := by
  unfold createDirectory at h
  repeat' split at h
  all_goals simp_all [throw, throwThe, MonadExceptOf.throw, pure, Except.pure]
  all_goals exact ⟨_, h.symm⟩

theorem deleteFile_ok {σ : Type} (host : Host σ) (srv : Server) (st : σ) (p : Option Str)
    (r : Envelope) (h : (deleteFile host srv st p).1 = .ok r) : ∃ text, r = textResult text := by
  unfold deleteFile at h
  repeat' split at h
  all_goals simp_all [throw, throwThe, MonadExceptOf.throw, pure, Except.pure]
  all_goals exact ⟨_, h.symm⟩

theorem searchFilesTool_ok {σ : Type} (host : Host σ) (srv : Server) (st : σ)
    (q f : Option Str) (m : Option Nat) (r : Envelope)
    (h : (searchFilesTool host srv st q f m).1 = .ok r) : ∃ text, r = textResult text := by
  unfold searchFilesTool at h
  repeat' split at h
  all_goals simp_all [throw, throwThe, MonadExceptOf.throw, pure, Except.pure]
  all_goals exact ⟨_, h.symm⟩

theorem getFileInfo_ok {σ : Type} (host : Host σ) (srv : Server) (st : σ) (p : Option Str)
    (r : Envelope) (h : (getFileInfo host srv st p).1 = .ok r) : ∃ text, r = textResult text := by
  unfold getFileInfo at h
  repeat' split at h
  all_goals simp_all [throw, throwThe, MonadExceptOf.throw, pure, Except.pure]
  all_goals exact ⟨_, h.symm⟩

theorem dispatch_ok {σ : Type} (host : Host σ) (srv : Server) (st : σ) (name : Str)
    (args : Option Args) (r : Envelope) (h : (dispatch host srv st name args).1 = .ok r) :
    ∃ text, r = textResult text := by
  unfold dispatch at h
  split at h
  · simp [throw, throwThe, MonadExceptOf.throw] at h
  · repeat' split at h
    · exact readFile_ok _ _ _ _ _ h
    · exact writeFile_ok _ _ _ _ _ _ h
    · exact listDirectory_ok _ _ _ _ _ h
    · exact createDirectory_ok _ _ _ _ _ h
    · exact deleteFile_ok _ _ _ _ _ h
    · exact searchFilesTool_ok _ _ _ _ _ _ _ h
    · exact getFileInfo_ok _ _ _ _ _ h
    · simp [throw, throwThe, MonadExceptOf.throw] at h

/-! ## Lemmas on paths -/

theorem splitOnChar_ne_nil (sep : Char) (s : Str) : splitOnChar sep s ≠ [] := by
  induction s with
  | nil => simp [splitOnChar]
  | cons c cs ih =>
    unfold splitOnChar
    split
    · simp
    · split <;> simp

theorem splitOnChar_of_not_mem (sep : Char) (s : Str) (h : sep ∉ s) :
    splitOnChar sep s = [s] := by
  induction s with
  | nil => rfl
  | cons c cs ih =>
    have hc : c ≠ sep := fun e => h (by simp [e])
    have hcs : sep ∉ cs := fun e => h (List.mem_cons_of_mem _ e)
    simp [splitOnChar, hc, ih hcs]

theorem splitOnChar_append (sep : Char) (a b : Str) :
    splitOnChar sep (a ++ sep :: b) = splitOnChar sep a ++ splitOnChar sep b := by
  induction a with
  | nil => simp [splitOnChar]
  | cons c cs ih =>
    by_cases hc : c = sep
    · simp [splitOnChar, hc, ih]
    · have h1 := splitOnChar_ne_nil sep cs
      simp only [List.cons_append, splitOnChar, if_neg hc, List.append_eq]
      rw [ih]
      cases hs : splitOnChar sep cs with
      | nil => exact absurd hs h1
      | cons x xs => simp

theorem splitOnChar_joinWith (sep : Char) (segs : List Str) (hne : segs ≠ [])
    (h : ∀ seg ∈ segs, sep ∉ seg) : splitOnChar sep (joinWith sep segs) = segs := by
  induction segs with
  | nil => exact absurd rfl hne
  | cons x xs ih =>
    cases xs with
    | nil => simpa [joinWith] using splitOnChar_of_not_mem sep x (h x (by simp))
    | cons y ys =>
      have h1 := splitOnChar_of_not_mem sep x (h x (by simp))
      have h2 := ih (by simp) (fun seg hseg => h seg (List.mem_cons_of_mem _ hseg))
      simp only [joinWith, splitOnChar_append, h1, h2, List.singleton_append]

theorem joinWith_snoc (sep : Char) (segs : List Str) (x : Str) (hne : segs ≠ []) :
    joinWith sep (segs ++ [x]) = joinWith sep segs ++ sep :: x := by
  induction segs with
  | nil => exact absurd rfl hne
  | cons y ys ih =>
    cases ys with
    | nil => simp [joinWith]
    | cons z zs =>
      have h2 := ih (by simp)
      rw [List.cons_append] at h2
      simp only [List.cons_append, joinWith, List.append_assoc, List.append_eq] at h2 ⊢
      rw [h2]

theorem normalizeStep_of_isPlain (allowAboveRoot : Bool) (res : List Str) (seg : Str)
    (h : isPlain seg = true) : normalizeStep allowAboveRoot res seg = seg :: res := by
  simp only [isPlain, Bool.and_eq_true, decide_eq_true_eq] at h
  obtain ⟨⟨h1, h2⟩, h3⟩ := h
  simp [normalizeStep, h1, h2, h3]

theorem foldl_normalizeStep_of_isPlain (allowAboveRoot : Bool) (segs : List Str)
    (h : ∀ seg ∈ segs, isPlain seg = true) :
    ∀ res, segs.foldl (normalizeStep allowAboveRoot) res = segs.reverse ++ res := by
  induction segs with
  | nil => intro res; rfl
  | cons x xs ih =>
    intro res
    rw [List.foldl_cons, normalizeStep_of_isPlain _ _ _ (h x (by simp)),
      ih (fun seg hseg => h seg (List.mem_cons_of_mem _ hseg))]
    simp

theorem normalizeSegments_of_isPlain (allowAboveRoot : Bool) (segs : List Str)
    (h : ∀ seg ∈ segs, isPlain seg = true) : normalizeSegments allowAboveRoot segs = segs := by
  simp [normalizeSegments, foldl_normalizeStep_of_isPlain allowAboveRoot segs h]

theorem normalizeSegments_snoc (allowAboveRoot : Bool) (segs : List Str) (seg : Str)
    (h : isPlain seg = true) :
    normalizeSegments allowAboveRoot (segs ++ [seg])
      = normalizeSegments allowAboveRoot segs ++ [seg] := by
  simp [normalizeSegments, List.foldl_append, normalizeStep_of_isPlain _ _ _ h]

theorem joinWith_ne_nil (sep : Char) (segs : List Str) (hne : segs ≠ [])
    (h : ∀ seg ∈ segs, seg ≠ []) : joinWith sep segs ≠ [] := by
  cases segs with
  | nil => exact absurd rfl hne
  | cons x xs =>
    have hx := h x (by simp)
    cases xs with
    | nil => simpa [joinWith] using hx
    | cons y ys => simp [joinWith, hx]

theorem head?_joinWith (sep : Char) (segs : List Str) (x : Str) (hx : x ≠ []) :
    (joinWith sep (x :: segs)).head? = x.head? := by
  cases segs with
  | nil => rfl
  | cons y ys =>
    cases x with
    | nil => exact absurd rfl hx
    | cons c cs => rfl

theorem mem_joinWith (sep : Char) (segs : List Str) (c : Char) (h : c ∈ joinWith sep segs) :
    c = sep ∨ ∃ seg ∈ segs, c ∈ seg := by
  induction segs with
  | nil => simp [joinWith] at h
  | cons x xs ih =>
    cases xs with
    | nil => exact Or.inr ⟨x, by simp, by simpa [joinWith] using h⟩
    | cons y ys =>
      simp only [joinWith, List.mem_append, List.mem_cons] at h
      rcases h with h | h | h
      · exact Or.inr ⟨x, by simp, h⟩
      · exact Or.inl h
      · rcases ih h with h | ⟨seg, hs, hc⟩
        · exact Or.inl h
        · exact Or.inr ⟨seg, List.mem_cons_of_mem _ hs, hc⟩

theorem toForwardSlashes_of_not_mem (s : Str) (h : '\\' ∉ s) : toForwardSlashes s = s := by
  induction s with
  | nil => rfl
  | cons c cs ih =>
    have hc : c ≠ '\\' := fun e => h (by simp [e])
    have hcs : '\\' ∉ cs := fun e => h (List.mem_cons_of_mem _ e)
    have := ih hcs
    simp only [toForwardSlashes, List.map_cons, if_neg hc] at this ⊢
    rw [this]

theorem isEntryName_iff (name : Str) :
    isEntryName name = true ↔ isPlain name = true ∧ '/' ∉ name := by
  simp [isEntryName]

theorem getLast?_append_of_ne_nil {α : Type} (a b : List α) (hb : b ≠ []) :
    (a ++ b).getLast? = b.getLast? := by
  cases b with
  | nil => exact absurd rfl hb
  | cons x xs => simp [List.getLast?_append, List.getLast?_cons]

theorem getLast?_joinWith_ne (segs : List Str) (hne : segs ≠ [])
    (h : ∀ seg ∈ segs, isEntryName seg = true) :
    (joinWith '/' segs).getLast? ≠ some '/' := by
  obtain ⟨init, x, rfl⟩ : ∃ init x, segs = init ++ [x] :=
    ⟨segs.dropLast, segs.getLast hne, (List.dropLast_append_getLast hne).symm⟩
  have hx := (isEntryName_iff x).mp (h x (by simp))
  have hxne : x ≠ [] := by
    intro e; rw [e] at hx; simp [isPlain] at hx
  intro hlast
  have hmem : ∀ c, x.getLast? = some c → c ∈ x := fun c hc => List.mem_of_getLast?_eq_some hc
  by_cases hinit : init = []
  · subst hinit
    simp only [List.nil_append, joinWith] at hlast
    exact hx.2 (hmem _ hlast)
  · rw [joinWith_snoc _ _ _ hinit, getLast?_append_of_ne_nil _ _ (by simp)] at hlast
    have h2 : ('/' :: x).getLast? = x.getLast? :=
      getLast?_append_of_ne_nil ['/'] x hxne
    rw [h2] at hlast
    exact hx.2 (hmem _ hlast)

theorem normalize_joinWith (segs : List Str) (hne : segs ≠ [])
    (h : ∀ seg ∈ segs, isEntryName seg = true) :
    normalize (joinWith '/' segs) = joinWith '/' segs := by
  have hplain : ∀ seg ∈ segs, isPlain seg = true := fun seg hs =>
    ((isEntryName_iff seg).mp (h seg hs)).1
  have hslash : ∀ seg ∈ segs, '/' ∉ seg := fun seg hs => ((isEntryName_iff seg).mp (h seg hs)).2
  have hsegne : ∀ seg ∈ segs, seg ≠ [] := by
    intro seg hs e
    have := hplain seg hs
    rw [e] at this; simp [isPlain] at this
  have h1 : joinWith '/' segs ≠ [] := joinWith_ne_nil _ _ hne hsegne
  have h2 : (joinWith '/' segs).head? ≠ some '/' := by
    cases segs with
    | nil => exact absurd rfl hne
    | cons x xs =>
      rw [head?_joinWith _ _ _ (hsegne x (by simp))]
      intro hh
      exact hslash x (by simp) (List.mem_of_mem_head? hh)
  have h3 := getLast?_joinWith_ne segs hne h
  have h4 : normalizeString (joinWith '/' segs) true = joinWith '/' segs := by
    simp only [normalizeString]
    rw [splitOnChar_joinWith _ _ hne hslash, normalizeSegments_of_isPlain _ _ hplain]
  simp [normalize, h1, h2, h3, h4]

theorem join_entry (segs : List Str) (name : Str) (h : ∀ seg ∈ segs, isEntryName seg = true)
    (hname : isEntryName name = true) :
    join [joinWith '/' segs, name] = joinWith '/' (segs ++ [name]) := by
  have hn : name ≠ [] := by
    intro e; rw [e] at hname; simp [isEntryName, isPlain] at hname
  have hall : ∀ seg ∈ segs ++ [name], isEntryName seg = true := by
    intro seg hs
    rcases List.mem_append.mp hs with hs | hs
    · exact h seg hs
    · rw [List.mem_singleton.mp hs]; exact hname
  by_cases hsegs : segs = []
  · subst hsegs
    have := normalize_joinWith [name] (by simp) hall
    simpa [join, joinWith, hn] using this
  · have h1 : joinWith '/' segs ≠ [] := by
      apply joinWith_ne_nil _ _ hsegs
      intro seg hs e
      have := h seg hs
      rw [e] at this; simp [isEntryName, isPlain] at this
    have := normalize_joinWith (segs ++ [name]) (by simp) hall
    rw [joinWith_snoc _ _ _ hsegs] at this
    simpa [join, joinWith, hn, h1, joinWith_snoc _ _ _ hsegs] using this

theorem not_mem_of_mem_splitOnChar (sep : Char) (s : Str) :
    ∀ seg ∈ splitOnChar sep s, sep ∉ seg := by
  induction s with
  | nil => simp [splitOnChar]
  | cons c cs ih =>
    intro seg hseg
    unfold splitOnChar at hseg
    split at hseg
    · rcases List.mem_cons.mp hseg with h | h
      · rw [h]; simp
      · exact ih seg h
    · rename_i hc
      split at hseg
      · rename_i hs; exact absurd hs (splitOnChar_ne_nil sep cs)
      · rename_i x xs hs
        rcases List.mem_cons.mp hseg with h | h
        · rw [h]
          have := ih x (by rw [hs]; simp)
          intro hmem
          rcases List.mem_cons.mp hmem with e | e
          · exact hc e.symm
          · exact this e
        · exact ih seg (by rw [hs]; exact List.mem_cons_of_mem _ h)

theorem mem_normalizeStep (allowAboveRoot : Bool) (res : List Str) (seg x : Str)
    (h : x ∈ normalizeStep allowAboveRoot res seg) :
    x ∈ res ∨ (x = seg ∧ seg ≠ [] ∧ seg ≠ ['.'] ∧ (allowAboveRoot = false → seg ≠ ['.', '.'])) := by
  unfold normalizeStep at h
  split at h
  · exact Or.inl h
  · rename_i h1
    simp only [not_or] at h1
    split at h
    · rename_i h2
      split at h
      · split at h
        · rename_i ha
          simp only [List.mem_singleton] at h
          exact Or.inr ⟨h, h1.1, h1.2, by simp [ha]⟩
        · simp at h
      · split at h
        · split at h
          · rename_i ha
            rcases List.mem_cons.mp h with h | h
            · exact Or.inr ⟨h, h1.1, h1.2, by simp [ha]⟩
            · exact Or.inl h
          · exact Or.inl h
        · exact Or.inl (List.mem_cons_of_mem _ h)
    · rename_i h2
      rcases List.mem_cons.mp h with h | h
      · exact Or.inr ⟨h, h1.1, h1.2, fun _ => h2⟩
      · exact Or.inl h

theorem mem_foldl_normalizeStep (allowAboveRoot : Bool) (segs : List Str) :
    ∀ (res : List Str) (x : Str), x ∈ segs.foldl (normalizeStep allowAboveRoot) res →
      x ∈ res ∨ (x ∈ segs ∧ x ≠ [] ∧ x ≠ ['.'] ∧ (allowAboveRoot = false → x ≠ ['.', '.'])) := by
  induction segs with
  | nil => intro res x h; exact Or.inl h
  | cons seg rest ih =>
    intro res x h
    rw [List.foldl_cons] at h
    rcases ih _ x h with h | ⟨h1, h2⟩
    · rcases mem_normalizeStep _ _ _ _ h with h | ⟨h1, h2⟩
      · exact Or.inl h
      · exact Or.inr ⟨by rw [h1]; simp, by rw [h1]; exact h2⟩
    · exact Or.inr ⟨List.mem_cons_of_mem _ h1, h2⟩

theorem mem_normalizeSegments (allowAboveRoot : Bool) (segs : List Str) (x : Str)
    (h : x ∈ normalizeSegments allowAboveRoot segs) :
    x ∈ segs ∧ x ≠ [] ∧ x ≠ ['.'] ∧ (allowAboveRoot = false → x ≠ ['.', '.']) := by
  rw [normalizeSegments, List.mem_reverse] at h
  rcases mem_foldl_normalizeStep _ _ _ _ h with h | h
  · simp at h
  · exact h

theorem dotdot_mem_normalizeStep (res : List Str) (seg : Str) (h : ['.', '.'] ∈ res) :
    ['.', '.'] ∈ normalizeStep true res seg := by
  unfold normalizeStep
  split
  · exact h
  · split
    · split
      · simp at h
      · rename_i last before
        split
        · exact List.mem_cons_of_mem _ h
        · rename_i hl
          rcases List.mem_cons.mp h with e | e
          · exact absurd e.symm hl
          · exact e
    · exact List.mem_cons_of_mem _ h

theorem foldl_normalizeStep_below (ps : List Str) :
    ['.', '.'] ∉ ps.foldl (normalizeStep true) [] →
    ∀ base, ps.foldl (normalizeStep false) base = ps.foldl (normalizeStep true) [] ++ base := by
  induction ps using List.reverseRecOn with
  | nil => intro _ base; rfl
  | append_singleton xs x ih =>
    intro hup base
    rw [List.foldl_append, List.foldl_cons, List.foldl_nil] at hup
    have hprev : ['.', '.'] ∉ xs.foldl (normalizeStep true) [] :=
      fun hmem => hup (dotdot_mem_normalizeStep _ x hmem)
    rw [List.foldl_append, List.foldl_cons, List.foldl_nil, List.foldl_append, List.foldl_cons,
      List.foldl_nil, ih hprev base]
    generalize xs.foldl (normalizeStep true) [] = top at hup hprev
    by_cases h1 : x = [] ∨ x = ['.']
    · simp [normalizeStep, h1]
    · by_cases h2 : x = ['.', '.']
      · subst h2
        cases top with
        | nil => simp [normalizeStep] at hup
        | cons last before =>
          have hl : last ≠ ['.', '.'] := fun e => hprev (by simp [e])
          simp [normalizeStep, hl]
      · simp [normalizeStep, h1, h2]

theorem normalizeSegments_append (rs ps : List Str)
    (hup : ['.', '.'] ∉ normalizeSegments true ps) :
    normalizeSegments false (rs ++ ps) = normalizeSegments false rs ++ normalizeSegments true ps := by
  have h : ['.', '.'] ∉ ps.foldl (normalizeStep true) [] := by
    simpa [normalizeSegments] using hup
  simp [normalizeSegments, List.foldl_append, foldl_normalizeStep_below ps h]

theorem normalizeSegments_append_nil (allowAboveRoot : Bool) (segs : List Str) :
    normalizeSegments allowAboveRoot (segs ++ [[]]) = normalizeSegments allowAboveRoot segs := by
  simp [normalizeSegments, List.foldl_append, normalizeStep]

theorem normalizeSegments_cons_nil (allowAboveRoot : Bool) (segs : List Str) :
    normalizeSegments allowAboveRoot ([] :: segs) = normalizeSegments allowAboveRoot segs := by
  simp [normalizeSegments, normalizeStep]

theorem resolve_relative (cwd root q : Str) (hroot : root.head? = some '/') (hq : q ≠ [])
    (hrel : q.head? ≠ some '/')
    (hup : ['.', '.'] ∉ normalizeSegments true (splitOnChar '/' q)) :
    resolve cwd [root, q] = '/' :: joinWith '/'
      (normalizeSegments false (splitOnChar '/' root)
        ++ normalizeSegments true (splitOnChar '/' q)) := by
  have hr : root ≠ [] := by intro e; rw [e] at hroot; simp at hroot
  have hloop : resolveLoop ([root, q].reverse ++ [cwd]) [] = (root ++ '/' :: (q ++ ['/']), true) := by
    simp [resolveLoop, hq, hrel, hr, hroot]
  have hsplit : splitOnChar '/' (root ++ '/' :: (q ++ ['/']))
      = (splitOnChar '/' root ++ splitOnChar '/' q) ++ [[]] := by
    rw [splitOnChar_append, splitOnChar_append]
    simp [splitOnChar]
  simp only [resolve, hloop, normalizeString, hsplit, normalizeSegments_append_nil,
    Bool.not_true, if_true]
  rw [normalizeSegments_append _ _ hup]

theorem joinWith_snoc_ne_nil (sep : Char) (segs : List Str) (x : Str) (hx : x ≠ []) :
    joinWith sep (segs ++ [x]) ≠ [] := by
  by_cases h : segs = []
  · subst h; simpa [joinWith] using hx
  · rw [joinWith_snoc _ _ _ h]; simp

theorem normalizeSegments_of_resolved (segs : List Str)
    (hplain : ∀ seg ∈ segs, isPlain seg = true) (hslash : ∀ seg ∈ segs, '/' ∉ seg) :
    normalizeSegments false (splitOnChar '/' ('/' :: joinWith '/' segs)) = segs := by
  have h1 : splitOnChar '/' ('/' :: joinWith '/' segs) = [] :: splitOnChar '/' (joinWith '/' segs) := by
    simp [splitOnChar]
  rw [h1, normalizeSegments_cons_nil]
  by_cases h : segs = []
  · subst h
    simp [joinWith, splitOnChar, normalizeSegments, normalizeStep]
  · rw [splitOnChar_joinWith _ _ h hslash, normalizeSegments_of_isPlain _ _ hplain]

theorem normalize_of_relative (path : Str) (h1 : path ≠ []) (h2 : path.head? ≠ some '/')
    (h3 : path.getLast? ≠ some '/') (h4 : normalizeString path true ≠ []) :
    normalize path = normalizeString path true := by
  simp [normalize, h1, h2, h3, h4]

theorem isEntryName_ne_nil (name : Str) (h : isEntryName name = true) : name ≠ [] := by
  intro e; rw [e] at h; simp [isEntryName, isPlain] at h

theorem entryPath_eq (p : Option Str) (name : Str)
    (hrel : (orElse p ['.']).head? ≠ some '/') (hname : isEntryName name = true) :
    join [orElse p [], name]
      = joinWith '/' (normalizeSegments true (splitOnChar '/' (orElse p ['.'])) ++ [name]) := by
  have hn := isEntryName_ne_nil name hname
  have hne := (isEntryName_iff name).mp hname
  by_cases hp : orElse p [] = []
  · have h1 : orElse p ['.'] = ['.'] := by
      cases p with
      | none => rfl
      | some q =>
        simp only [orElse] at hp ⊢
        split at hp
        · rename_i hq; simp [hq]
        · rename_i hq; exact absurd hp hq
    rw [hp, h1]
    have := join_entry [] name (by simp) hname
    simpa [joinWith, normalizeSegments, splitOnChar, normalizeStep] using this
  · obtain ⟨q, hq, h0, h1⟩ : ∃ q, q ≠ [] ∧ orElse p [] = q ∧ orElse p ['.'] = q := by
      cases p with
      | none => exact absurd rfl hp
      | some q =>
        by_cases hq : q = []
        · simp [orElse, hq] at hp
        · exact ⟨q, hq, by simp [orElse, hq], by simp [orElse, hq]⟩
    rw [h0, h1]
    rw [h1] at hrel
    have hjoined : joinWith '/' [q, name] = q ++ '/' :: name := rfl
    have hhead : (q ++ '/' :: name).head? ≠ some '/' := by
      cases q with
      | nil => exact absurd rfl hq
      | cons c cs => simpa using hrel
    have hlast : (q ++ '/' :: name).getLast? ≠ some '/' := by
      have e1 : (q ++ '/' :: name).getLast? = ('/' :: name).getLast? :=
        getLast?_append_of_ne_nil _ _ (by simp)
      have e2 : ('/' :: name).getLast? = name.getLast? := getLast?_append_of_ne_nil ['/'] name hn
      rw [e1, e2]
      intro hl
      exact hne.2 (List.mem_of_getLast?_eq_some hl)
    have hns : normalizeString (q ++ '/' :: name) true
        = joinWith '/' (normalizeSegments true (splitOnChar '/' q) ++ [name]) := by
      rw [normalizeString, splitOnChar_append, splitOnChar_of_not_mem _ _ hne.2,
        normalizeSegments_snoc _ _ _ hne.1]
    have hnn := joinWith_snoc_ne_nil '/' (normalizeSegments true (splitOnChar '/' q)) name hn
    have hjoin : join [q, name] = normalize (q ++ '/' :: name) := by
      simp [join, hq, hn, joinWith]
    rw [hjoin, normalize_of_relative _ (by simp) hhead hlast (by rw [hns]; exact hnn), hns]

/-! ## Lemmas on letter case and on the lines of a file -/

theorem toNat_ofNat_of_lt (n : Nat) (h : n < 200) : (Char.ofNat n).toNat = n := by
  interval_cases n <;> rfl

theorem lowerChar_lowerChar (c : Char) : lowerChar (lowerChar c) = lowerChar c := by
  by_cases h : 65 ≤ c.toNat ∧ c.toNat ≤ 90
  · have h1 : (Char.ofNat (c.toNat + 32)).toNat = c.toNat + 32 :=
      toNat_ofNat_of_lt _ (by omega)
    have h2 : ¬ (65 ≤ (Char.ofNat (c.toNat + 32)).toNat ∧
        (Char.ofNat (c.toNat + 32)).toNat ≤ 90) := by
      rw [h1]; omega
    simp only [lowerChar, if_pos h, if_neg h2]
  · simp only [lowerChar, if_neg h]

theorem lowerChar_upperChar (c : Char) : lowerChar (upperChar c) = lowerChar c := by
  by_cases h : 97 ≤ c.toNat ∧ c.toNat ≤ 122
  · have h1 : (Char.ofNat (c.toNat - 32)).toNat = c.toNat - 32 :=
      toNat_ofNat_of_lt _ (by omega)
    have h2 : 65 ≤ (Char.ofNat (c.toNat - 32)).toNat ∧
        (Char.ofNat (c.toNat - 32)).toNat ≤ 90 := by
      rw [h1]; omega
    have h3 : ¬ (65 ≤ c.toNat ∧ c.toNat ≤ 90) := by omega
    have h4 : c.toNat - 32 + 32 = c.toNat := by omega
    rw [upperChar, if_pos h, lowerChar, if_pos h2, lowerChar, if_neg h3, h1, h4,
      Char.ofNat_toNat]
  · simp only [upperChar, if_neg h]

theorem mem_matchingLines (toLowerCase : Str → Str) (query file : Str) (lines : List Str) :
    ∀ (index : Nat) (r : SearchResult),
      r ∈ matchingLines toLowerCase query file lines index ↔
        ∃ i line, lines[i]? = some line ∧
          includes (toLowerCase line) (toLowerCase query) = true ∧
          r = { file := file, line := index + i + 1, content := trim line } := by
  induction lines with
  | nil => intro index r; simp [matchingLines]
  | cons first rest ih =>
    intro index r
    have hrest : r ∈ matchingLines toLowerCase query file rest (index + 1) ↔
        ∃ i line, (first :: rest)[i + 1]? = some line ∧
          includes (toLowerCase line) (toLowerCase query) = true ∧
          r = { file := file, line := index + (i + 1) + 1, content := trim line } := by
      rw [ih]
      constructor
      · rintro ⟨i, line, h1, h2, h3⟩
        exact ⟨i, line, by simpa using h1, h2, by rw [h3]; congr 1; omega⟩
      · rintro ⟨i, line, h1, h2, h3⟩
        exact ⟨i, line, by simpa using h1, h2, by rw [h3]; congr 1; omega⟩
    constructor
    · intro h
      unfold matchingLines at h
      split at h
      · rename_i hm
        rcases List.mem_cons.mp h with h | h
        · exact ⟨0, first, by simp, hm, h⟩
        · obtain ⟨i, line, h1, h2, h3⟩ := hrest.mp h
          exact ⟨i + 1, line, h1, h2, h3⟩
      · obtain ⟨i, line, h1, h2, h3⟩ := hrest.mp h
        exact ⟨i + 1, line, h1, h2, h3⟩
    · rintro ⟨i, line, h1, h2, h3⟩
      cases i with
      | zero =>
        simp only [List.getElem?_cons_zero, Option.some.injEq] at h1
        subst h1
        unfold matchingLines
        rw [if_pos h2, h3]
        exact List.mem_cons_self _ _
      | succ i =>
        have h := hrest.mpr ⟨i, line, h1, h2, h3⟩
        unfold matchingLines
        split
        · exact List.mem_cons_of_mem _ h
        · exact h

/-! ## The properties -/

/-- C1, on the code: with the repository root `/a/b` the path `../bb` resolves
to `/a/bb`, which is neither the root nor below it, and `getAbsolutePath`
returns it instead of failing with `Access denied`. -/
theorem getAbsolutePath_accepts_sibling :
    resolve "/".toList ["/a/b".toList, "../bb".toList] = "/a/bb".toList ∧
    isWithin "/a/b".toList "/a/bb".toList = false ∧
    getAbsolutePath { repoPath := "/a/b".toList, cwd := "/".toList } "../bb".toList
      = .ok "/a/bb".toList := by
  refine ⟨by rfl, by rfl, by rfl⟩

/-- C2, on the code: with the repository root written `/a/b/` the empty path
resolves to `/a/b`, the root directory itself, and `getAbsolutePath` fails with
`Access denied` instead of returning it. -/
theorem getAbsolutePath_rejects_root :
    resolve "/".toList ["/a/b/".toList, []] = "/a/b".toList ∧
    getAbsolutePath { repoPath := "/a/b/".toList, cwd := "/".toList } []
      = .error (Thrown.error "Access denied: Path outside repository".toList) := by
  refine ⟨by rfl, by rfl⟩

/-- Whenever the resolved path is the root or the root followed by a separator
and more, `getAbsolutePath` returns the resolved path. -/
theorem getAbsolutePath_of_isWithin (srv : Server) (p : Str)
    (h : isWithin srv.repoPath (resolve srv.cwd [srv.repoPath, p]) = true) :
    getAbsolutePath srv p = .ok (resolve srv.cwd [srv.repoPath, p]) := by
  have hp : srv.repoPath.isPrefixOf (resolve srv.cwd [srv.repoPath, p]) = true := by
    simp only [isWithin, Bool.or_eq_true, decide_eq_true_eq] at h
    rcases h with h | h
    · rw [h]; simp
    · rw [List.isPrefixOf_iff_prefix] at h ⊢
      exact (List.prefix_append _ _).trans h
  simp [getAbsolutePath, hp, pure, Except.pure]

/-- C3: when the search without a bound yields `all` and `max_results` (20 when
omitted) is less than the number of matches, `searchFiles` returns a list of
exactly `max_results` entries. -/
theorem searchFiles_length_eq_maxResults (hostRegExp : Str → Except Thrown (Str → Bool))
    (toLowerCase : Str → Str) (root : Listing) (query : Str) (filePattern : Option Str)
    (maxResults : Option Nat) (all : List SearchResult)
    (hall : allMatches hostRegExp toLowerCase root (some query) filePattern = .ok all)
    (hk : maxResults.getD 20 < all.length) :
    ∃ results,
      searchFiles hostRegExp toLowerCase root (some query) filePattern maxResults
        = .ok results ∧
      results.length = maxResults.getD 20 := by
  refine ⟨all.take (maxResults.getD 20), ?_, ?_⟩
  · have h := searchInDirectory_eq
      { hostRegExp := hostRegExp, toLowerCase := toLowerCase, query := some query,
        filePattern := filePattern, maxResults := maxResults.getD 20 } root [] [] all hall
    simpa [searchFiles] using h
  · rw [List.length_take]; omega

theorem searchFiles_length_eq_maxResults_witness :
    allMatches rejectAll latin1ToLowerCase sampleTree (some "hello".toList) none
      = .ok [⟨"a.txt".toList, 1, "Hello".toList⟩, ⟨"a.txt".toList, 2, "hello world".toList⟩,
          ⟨"b/c.md".toList, 1, "say hello".toList⟩] ∧
    ∃ results,
      searchFiles rejectAll latin1ToLowerCase sampleTree (some "hello".toList) none (some 2)
        = .ok results ∧ results.length = 2 :=
  ⟨by rfl, searchFiles_length_eq_maxResults rejectAll latin1ToLowerCase sampleTree
    "hello".toList none (some 2) _ (by rfl) (by decide)⟩

/-- C5, on the code: with the pattern `*.txt` the file `readme_txt`, whose name
does not end in `.txt`, passes the filter and its matching line is reported:
the dot of the pattern reaches the regular expression unescaped and matches any
character. -/
theorem searchFiles_pattern_dot_matches_any :
    replaceStars "*.txt".toList ++ ['$'] = ".*.txt$".toList ∧
    ".txt".toList.isSuffixOf "readme_txt".toList = false ∧
    searchFiles rejectAll latin1ToLowerCase
      (.items [.file "readme_txt".toList (some "hello".toList)])
      (some "hello".toList) (some "*.txt".toList) none
      = .ok [⟨"readme_txt".toList, 1, "hello".toList⟩] := by
  refine ⟨by rfl, by rfl, by rfl⟩

theorem answers_callTool {σ : Type} (host : Host σ) (srv : Server) (st : σ) (name : Str)
    (args : Option Args) :
    Answers (callTool host srv st name args).1 (dispatch host srv st name args).1 := by
  unfold callTool
  split
  · rename_i h; rw [h]; rfl
  · rename_i e _ h
    rw [h]
    cases e <;> rfl

theorem callTool_of_error {σ : Type} (host : Host σ) (srv : Server) (st : σ) (name : Str)
    (args : Option Args) (m : Str)
    (h : (dispatch host srv st name args).1 = .error (Thrown.error m)) :
    (callTool host srv st name args).1
      = { content := [{ type := "text".toList, text := "Error: ".toList ++ m }] } := by
  have := answers_callTool host srv st name args
  rw [h] at this
  exact this

/-- C6: the `CallTool` handler always returns an envelope with exactly one
content item, of type `text`.  It answers every handler: the result of the
handler when the handler returns, and `Error: ` followed by the message when
the handler throws.  A missing argument bag gives `Error: No arguments
provided`, an unknown tool name `Error: Unknown tool: ` followed by the name, a
path outside the repository `Error: Access denied: Path outside repository`,
and a path that does not exist the `not found` message of the tool. -/
theorem callTool_returns_text {σ : Type} (host : Host σ) (srv : Server) (st : σ) (name : Str)
    (args : Option Args) :
    (∃ text, (callTool host srv st name args).1
      = { content := [{ type := "text".toList, text := text }] }) ∧
    (args = none →
      (callTool host srv st name args).1
        = { content := [{ type := "text".toList,
                          text := "Error: No arguments provided".toList }] }) ∧
    (∀ a, args = some a →
      (name = "read_file".toList →
        Answers (callTool host srv st name args).1 (readFile host srv st a.path).1) ∧
      (name = "write_file".toList →
        Answers (callTool host srv st name args).1
          (writeFile host srv st a.path a.content).1) ∧
      (name = "list_directory".toList →
        Answers (callTool host srv st name args).1 (listDirectory host srv st a.path).1) ∧
      (name = "create_directory".toList →
        Answers (callTool host srv st name args).1 (createDirectory host srv st a.path).1) ∧
      (name = "delete_file".toList →
        Answers (callTool host srv st name args).1 (deleteFile host srv st a.path).1) ∧
      (name = "search_files".toList →
        Answers (callTool host srv st name args).1
          (searchFilesTool host srv st a.query a.file_pattern a.max_results).1) ∧
      (name = "get_file_info".toList →
        Answers (callTool host srv st name args).1 (getFileInfo host srv st a.path).1) ∧
      (name ∉ ["read_file".toList, "write_file".toList, "list_directory".toList,
          "create_directory".toList, "delete_file".toList, "search_files".toList,
          "get_file_info".toList] →
        (callTool host srv st name args).1
          = { content := [{ type := "text".toList,
                            text := "Error: Unknown tool: ".toList ++ name }] }) ∧
      (∀ p, a.path = some p →
        name ∈ ["read_file".toList, "write_file".toList, "create_directory".toList,
          "delete_file".toList, "get_file_info".toList] →
        srv.repoPath.isPrefixOf (resolve srv.cwd [srv.repoPath, p]) = false →
        (callTool host srv st name args).1
          = { content := [{ type := "text".toList,
                            text := "Error: Access denied: Path outside repository".toList }] }) ∧
      (∀ p, a.path = some p →
        srv.repoPath.isPrefixOf (resolve srv.cwd [srv.repoPath, p]) = true →
        host.pathExists st (resolve srv.cwd [srv.repoPath, p]) = false →
        (name = "read_file".toList ∨ name = "delete_file".toList →
          (callTool host srv st name args).1
            = { content := [{ type := "text".toList,
                              text := "Error: File not found: ".toList ++ p }] }) ∧
        (name = "get_file_info".toList →
          (callTool host srv st name args).1
            = { content := [{ type := "text".toList,
                              text := "Error: Path not found: ".toList ++ p }] }))) := by
  have hans := answers_callTool host srv st name args
  refine ⟨?_, ?_, ?_⟩
  · unfold callTool
    split
    · rename_i result st1 h
      obtain ⟨text, ht⟩ := dispatch_ok host srv st name args result (by rw [h])
      exact ⟨text, by rw [ht]; rfl⟩
    · exact ⟨_, rfl⟩
  · intro h
    subst h
    rfl
  · intro a ha
    subst ha
    refine ⟨?_, ?_, ?_, ?_, ?_, ?_, ?_, ?_, ?_, ?_⟩
    · intro hn; subst hn; exact hans
    · intro hn; subst hn; exact hans
    · intro hn; subst hn; exact hans
    · intro hn; subst hn; exact hans
    · intro hn; subst hn; exact hans
    · intro hn; subst hn; exact hans
    · intro hn; subst hn; exact hans
    · intro hn
      simp only [List.mem_cons, List.mem_singleton, List.not_mem_nil, or_false, not_or] at hn
      obtain ⟨h1, h2, h3, h4, h5, h6, h7⟩ := hn
      unfold callTool dispatch
      simp only [if_neg h1, if_neg h2, if_neg h3, if_neg h4, if_neg h5, if_neg h6, if_neg h7]
      rfl
    · intro p hp hn hout
      have hdenied : getAbsolutePathArg srv (some p)
          = .error (Thrown.error "Access denied: Path outside repository".toList) := by
        simp [getAbsolutePathArg, getAbsolutePath, hout, throw, throwThe,
          MonadExceptOf.throw]
      have hdenied2 : getAbsolutePath srv p
          = .error (Thrown.error "Access denied: Path outside repository".toList) := by
        simp [getAbsolutePath, hout, throw, throwThe, MonadExceptOf.throw]
      apply callTool_of_error
      simp only [List.mem_cons, List.mem_singleton, List.not_mem_nil, or_false] at hn
      rcases hn with hn | hn | hn | hn | hn
      · subst hn
        show (readFile host srv st a.path).1 = _
        simp [readFile, hp, hdenied, throw, throwThe, MonadExceptOf.throw]
      · subst hn
        show (writeFile host srv st a.path a.content).1 = _
        simp [writeFile, hp, hdenied, throw, throwThe, MonadExceptOf.throw]
      · subst hn
        show (createDirectory host srv st a.path).1 = _
        simp [createDirectory, hp, hdenied, throw, throwThe, MonadExceptOf.throw]
      · subst hn
        show (deleteFile host srv st a.path).1 = _
        simp [deleteFile, hp, hdenied, throw, throwThe, MonadExceptOf.throw]
      · subst hn
        show (getFileInfo host srv st a.path).1 = _
        simp [getFileInfo, hp, hdenied2, throw, throwThe, MonadExceptOf.throw]
    · intro p hp hin hex
      have hok : getAbsolutePathArg srv (some p)
          = .ok (resolve srv.cwd [srv.repoPath, p]) := by
        simp [getAbsolutePathArg, getAbsolutePath, hin, pure, Except.pure]
      have hok2 : getAbsolutePath srv p = .ok (resolve srv.cwd [srv.repoPath, p]) := by
        simp [getAbsolutePath, hin, pure, Except.pure]
      refine ⟨?_, ?_⟩
      · intro hn
        apply callTool_of_error
        rcases hn with hn | hn
        · subst hn
          show (readFile host srv st a.path).1 = _
          simp [readFile, hok, hex, hp, templateText, throw, throwThe, MonadExceptOf.throw]
        · subst hn
          show (deleteFile host srv st a.path).1 = _
          simp [deleteFile, hok, hex, hp, templateText, throw, throwThe, MonadExceptOf.throw]
      · intro hn
        apply callTool_of_error
        subst hn
        show (getFileInfo host srv st a.path).1 = _
        simp [getFileInfo, hok2, hex, hp, throw, throwThe, MonadExceptOf.throw]

theorem callTool_returns_text_witness :
    (callTool absentHost { repoPath := "/r".toList, cwd := "/".toList } ()
        "read_file".toList (some (pathArgs "a.txt".toList))).1
      = { content := [{ type := "text".toList,
                        text := "Error: File not found: a.txt".toList }] } ∧
    (callTool absentHost { repoPath := "/r".toList, cwd := "/".toList } ()
        "delete_file".toList (some (pathArgs "../etc/passwd".toList))).1
      = { content := [{ type := "text".toList,
                        text := "Error: Access denied: Path outside repository".toList }] } ∧
    (callTool absentHost { repoPath := "/r".toList, cwd := "/".toList } ()
        "read_file".toList none).1
      = { content := [{ type := "text".toList,
                        text := "Error: No arguments provided".toList }] } :=
  ⟨by rfl, by rfl,
    (callTool_returns_text absentHost { repoPath := "/r".toList, cwd := "/".toList } ()
      "read_file".toList none).2.1 rfl⟩

/-- C7, as the code has it: for a mode with an owner bit set, the field
`permissions` is the digit `0` followed by exactly three octal digits, for
owner, group and other, and its value is the mode reduced to its low 9 bits. -/
theorem permissions_eq (mode : Nat) (h : 64 ≤ mode % 512) :
    permissions mode
      = ['0', Char.ofNat (48 + mode % 512 / 64), Char.ofNat (48 + mode % 512 / 8 % 8),
          Char.ofNat (48 + mode % 512 % 8)] ∧
    (permissions mode).all isOctalDigit = true ∧
    octalValue (permissions mode) = mode % 512 := by
  have hmask : mode &&& 511 = mode % 512 := Nat.and_pow_two_sub_one_eq_mod mode 9
  have key : ∀ k, k < 512 → 64 ≤ k →
      ('0' :: Nat.toDigits 8 k
          = ['0', Char.ofNat (48 + k / 64), Char.ofNat (48 + k / 8 % 8), Char.ofNat (48 + k % 8)] ∧
        ('0' :: Nat.toDigits 8 k).all isOctalDigit = true ∧
        octalValue ('0' :: Nat.toDigits 8 k) = k) := by
    set_option maxRecDepth 100000 in decide
  have hlt : mode % 512 < 512 := Nat.mod_lt _ (by decide)
  have hperm : permissions mode = '0' :: Nat.toDigits 8 (mode % 512) := by
    simp [permissions, hmask]
  rw [hperm]
  exact key _ hlt h

theorem permissions_eq_witness :
    64 ≤ 0o100644 % 512 ∧ permissions 0o100644 = "0644".toList ∧
    (permissions 0o100644).all isOctalDigit = true ∧
    octalValue (permissions 0o100644) = 0o644 :=
  ⟨by decide, permissions_eq 0o100644 (by decide)⟩

/-- C7, against the claim: for the mode `0o100644` of a regular file the field
is `0644`, four characters and not three. -/
theorem permissions_four_characters :
    permissions 0o100644 = "0644".toList ∧ (permissions 0o100644).length ≠ 3 := by
  refine ⟨by rfl, by decide⟩

/-- C10: when the search without a bound yields `all`, `searchFiles` with
`max_results = k` returns the first `k` entries of `all` (all of them when
there are fewer). -/
theorem searchFiles_eq_take_allMatches (hostRegExp : Str → Except Thrown (Str → Bool))
    (toLowerCase : Str → Str) (root : Listing) (query : Str) (filePattern : Option Str)
    (k : Nat) (all : List SearchResult)
    (hall : allMatches hostRegExp toLowerCase root (some query) filePattern = .ok all) :
    searchFiles hostRegExp toLowerCase root (some query) filePattern (some k)
      = .ok (all.take k) := by
  have h := searchInDirectory_eq
    { hostRegExp := hostRegExp, toLowerCase := toLowerCase, query := some query,
      filePattern := filePattern, maxResults := k } root [] [] all hall
  simpa [searchFiles] using h

theorem searchFiles_eq_take_allMatches_witness :
    allMatches rejectAll latin1ToLowerCase sampleTree (some "hello".toList)
        (some "*.txt".toList)
      = .ok [⟨"a.txt".toList, 1, "Hello".toList⟩, ⟨"a.txt".toList, 2, "hello world".toList⟩] ∧
    searchFiles rejectAll latin1ToLowerCase sampleTree (some "hello".toList)
        (some "*.txt".toList) (some 1)
      = .ok (List.take 1
          [⟨"a.txt".toList, 1, "Hello".toList⟩, ⟨"a.txt".toList, 2, "hello world".toList⟩]) :=
  ⟨by rfl, searchFiles_eq_take_allMatches rejectAll latin1ToLowerCase sampleTree "hello".toList
    (some "*.txt".toList) 1 _ (by rfl)⟩

/-! ### Matching lines -/

theorem includes_iff_contiguous (a b : Str) : includes a b = true ↔ b <:+: a := by
  rw [List.infix_iff_prefix_suffix]
  simp only [includes, List.any_eq_true, List.mem_tails, List.isPrefixOf_iff_prefix]
  constructor
  · rintro ⟨t, h1, h2⟩; exact ⟨t, h2, h1⟩
  · rintro ⟨t, h1, h2⟩; exact ⟨t, h2, h1⟩

theorem joinWith_splitOnChar (sep : Char) (s : Str) : joinWith sep (splitOnChar sep s) = s := by
  induction s with
  | nil => rfl
  | cons c cs ih =>
    have hne := splitOnChar_ne_nil sep cs
    cases hs : splitOnChar sep cs with
    | nil => exact absurd hs hne
    | cons x xs =>
      rw [hs] at ih
      by_cases hc : c = sep
      · simp only [splitOnChar, if_pos hc, hs, joinWith, List.nil_append, ih, hc]
      · simp only [splitOnChar, if_neg hc, hs]
        cases xs with
        | nil =>
          simp only [joinWith] at ih ⊢
          rw [ih]
        | cons y ys =>
          simp only [joinWith, List.cons_append, List.append_eq] at ih ⊢
          rw [ih]

theorem not_isWhiteSpace_of_head?_dropWhile (l : Str) (c : Char)
    (h : (l.dropWhile isWhiteSpace).head? = some c) : isWhiteSpace c = false := by
  induction l with
  | nil => simp at h
  | cons x xs ih =>
    by_cases hx : isWhiteSpace x = true
    · rw [List.dropWhile_cons_of_pos hx] at h
      exact ih h
    · rw [List.dropWhile_cons_of_neg hx] at h
      simp only [List.head?_cons, Option.some.injEq] at h
      rw [← h]
      simpa using hx

theorem isTrimOf_trim (line : Str) : IsTrimOf line (trim line) := by
  refine ⟨line.takeWhile isWhiteSpace,
    (((line.dropWhile isWhiteSpace).reverse).takeWhile isWhiteSpace).reverse, ?_, ?_, ?_, ?_, ?_⟩
  · have h1 := List.takeWhile_append_dropWhile isWhiteSpace line
    have h2 := List.takeWhile_append_dropWhile isWhiteSpace
      (line.dropWhile isWhiteSpace).reverse
    have h3 : trim line ++ (((line.dropWhile isWhiteSpace).reverse).takeWhile isWhiteSpace).reverse
        = line.dropWhile isWhiteSpace := by
      rw [trim, ← List.reverse_append, h2, List.reverse_reverse]
    rw [List.append_assoc, h3, h1]
  · intro c hc
    exact (List.mem_takeWhile_imp hc)
  · intro c hc
    exact (List.mem_takeWhile_imp (List.mem_reverse.mp hc))
  · intro c hc
    have h2 := List.takeWhile_append_dropWhile isWhiteSpace
      (line.dropWhile isWhiteSpace).reverse
    have h3 : trim line ++ (((line.dropWhile isWhiteSpace).reverse).takeWhile isWhiteSpace).reverse
        = line.dropWhile isWhiteSpace := by
      rw [trim, ← List.reverse_append, h2, List.reverse_reverse]
    apply not_isWhiteSpace_of_head?_dropWhile line c
    rw [← h3]
    cases ht : trim line with
    | nil => rw [ht] at hc; simp at hc
    | cons x xs => rw [ht] at hc; simpa using hc
  · intro c hc
    rw [trim, List.getLast?_reverse] at hc
    exact not_isWhiteSpace_of_head?_dropWhile _ c hc

theorem latin1ToLowerCase_of_isAscii (t : Str) (h : IsAscii t) :
    latin1ToLowerCase t = t.map lowerChar := by
  apply List.map_congr_left
  intro c hc
  have hlt := h c hc
  by_cases h1 : 65 ≤ c.toNat ∧ c.toNat ≤ 90
  · simp [latin1LowerChar, lowerChar, h1]
  · have h2 : ¬ ((65 ≤ c.toNat ∧ c.toNat ≤ 90) ∨
        (192 ≤ c.toNat ∧ c.toNat ≤ 222 ∧ c.toNat ≠ 215)) := by omega
    simp only [latin1LowerChar, lowerChar, if_neg h1, if_neg h2]

theorem asciiCaseVariant_map_lowerChar (a b : Str) (h : AsciiCaseVariant a b)
    (ha : IsAscii a) : b.map lowerChar = a.map lowerChar ∧ IsAscii b := by
  unfold AsciiCaseVariant at h
  induction h with
  | nil => exact ⟨rfl, ha⟩
  | @cons x y xs ys hxy _ ih =>
    have hx : x.toNat < 128 := ha x (by simp)
    obtain ⟨ih1, ih2⟩ := ih (fun c hc => ha c (List.mem_cons_of_mem _ hc))
    have hy : lowerChar y = lowerChar x ∧ y.toNat < 128 := by
      rcases hxy with hy | hy | hy
      · rw [hy]; exact ⟨rfl, hx⟩
      · refine ⟨by rw [hy, lowerChar_upperChar], ?_⟩
        rw [hy, upperChar]
        split
        · rw [toNat_ofNat_of_lt _ (by omega)]; omega
        · exact hx
      · refine ⟨by rw [hy, lowerChar_lowerChar], ?_⟩
        rw [hy, lowerChar]
        split
        · rw [toNat_ofNat_of_lt _ (by omega)]; omega
        · exact hx
    refine ⟨by simp only [List.map_cons, hy.1, ih1], ?_⟩
    intro c hc
    rcases List.mem_cons.mp hc with e | e
    · rw [e]; exact hy.2
    · exact ih2 c e

/-- C9, as the code has it: in a file whose visit ends below the bound, an entry
is added for a line exactly when the lower-cased query is a contiguous part of
the lower-cased line, and it carries the path of the file, the 1-based index
of the line among the pieces of the text between the line feeds, and the line
without its leading and trailing white space.  In a host whose lower-casing
maps the ASCII capitals to their small letters, the query `Hello` matches the
line `hello world`, and for a query and a line made of ASCII characters a
change of letter case does not change whether the line matches. -/
theorem searchFileContent_reports (s : Search) (query text path : Str)
    (results : List SearchResult) (hq : s.query = some query)
    (hbound : (searchFileContent s (some text) path results).length < s.maxResults)
    (hlower : ∀ t, IsAscii t → s.toLowerCase t = t.map lowerChar) :
    (∀ r, r ∈ searchFileContent s (some text) path results ↔
      r ∈ results ∨ ∃ i line, (splitOnChar '\n' text)[i]? = some line ∧
        s.toLowerCase query <:+: s.toLowerCase line ∧
        r = { file := path, line := i + 1, content := trim line }) ∧
    (joinWith '\n' (splitOnChar '\n' text) = text ∧
      ∀ line ∈ splitOnChar '\n' text, '\n' ∉ line) ∧
    (∀ line, IsTrimOf line (trim line)) ∧
    s.toLowerCase "Hello".toList <:+: s.toLowerCase "hello world".toList ∧
    (∀ q q2 line line2, IsAscii q → IsAscii line → AsciiCaseVariant q q2 →
      AsciiCaseVariant line line2 →
      (s.toLowerCase q2 <:+: s.toLowerCase line2 ↔ s.toLowerCase q <:+: s.toLowerCase line)) := by
  refine ⟨?_, ⟨joinWith_splitOnChar _ _, not_mem_of_mem_splitOnChar _ _⟩, isTrimOf_trim, ?_, ?_⟩
  · intro r
    have h0 := searchFileContent_eq s (some text) path results
    simp only [fileMatches, hq] at h0
    have h1 : searchFileContent s (some text) path results
        = results ++ matchingLines s.toLowerCase query path (splitOnChar '\n' text) 0 := by
      rw [h0]
      rw [h0, List.length_append, List.length_take] at hbound
      rw [List.take_of_length_le (by omega)]
    rw [h1, List.mem_append, mem_matchingLines]
    simp [includes_iff_contiguous]
  · rw [hlower _ (by intro c hc; revert c; decide), hlower _ (by intro c hc; revert c; decide)]
    decide
  · intro q q2 line line2 hq1 hl1 hv1 hv2
    obtain ⟨e1, a1⟩ := asciiCaseVariant_map_lowerChar _ _ hv1 hq1
    obtain ⟨e2, a2⟩ := asciiCaseVariant_map_lowerChar _ _ hv2 hl1
    rw [hlower _ a1, hlower _ a2, hlower _ hq1, hlower _ hl1, e1, e2]

theorem searchFileContent_reports_witness :
    searchFileContent
        { hostRegExp := rejectAll, toLowerCase := latin1ToLowerCase,
          query := some "café".toList, filePattern := none, maxResults := 20 }
        (some "x\n  Un CAFÉ \r\ny".toList) "f.txt".toList []
      = [⟨"f.txt".toList, 2, "Un CAFÉ".toList⟩] ∧
    ∀ r, r ∈ searchFileContent
        { hostRegExp := rejectAll, toLowerCase := latin1ToLowerCase,
          query := some "café".toList, filePattern := none, maxResults := 20 }
        (some "x\n  Un CAFÉ \r\ny".toList) "f.txt".toList [] ↔
      r ∈ [] ∨ ∃ i line, (splitOnChar '\n' "x\n  Un CAFÉ \r\ny".toList)[i]? = some line ∧
        latin1ToLowerCase "café".toList <:+: latin1ToLowerCase line ∧
        r = { file := "f.txt".toList, line := i + 1, content := trim line } :=
  ⟨by rfl,
    (searchFileContent_reports
      { hostRegExp := rejectAll, toLowerCase := latin1ToLowerCase,
        query := some "café".toList, filePattern := none, maxResults := 20 }
      "café".toList "x\n  Un CAFÉ \r\ny".toList "f.txt".toList [] rfl (by decide)
      latin1ToLowerCase_of_isAscii).1⟩

/-- C9, against the claim: `STRASSE` is the upper-case form of `straße`, the
line `Straße` is reported for the query `straße` and is not reported for the
query `STRASSE`. -/
theorem case_change_changes_match :
    sharpSToUpperCase "straße".toList = "STRASSE".toList ∧
    searchFileContent
        { hostRegExp := rejectAll, toLowerCase := latin1ToLowerCase,
          query := some "straße".toList, filePattern := none, maxResults := 20 }
        (some "Straße".toList) "f.txt".toList []
      = [⟨"f.txt".toList, 1, "Straße".toList⟩] ∧
    searchFileContent
        { hostRegExp := rejectAll, toLowerCase := latin1ToLowerCase,
          query := some "STRASSE".toList, filePattern := none, maxResults := 20 }
        (some "Straße".toList) "f.txt".toList []
      = [] := by
  refine ⟨by rfl, by rfl, by rfl⟩

/-! ### Pruned directories -/

mutual
theorem searchInDirectory_pruneListing (s : Search) : ∀ (listing : Listing) (rel : Str)
    (results : List SearchResult),
    searchInDirectory s (pruneListing listing) rel results
      = searchInDirectory s listing rel results
  | .fails err, rel, results => by simp [pruneListing]
  | .items entries, rel, results => by
    simp [pruneListing, searchInDirectory, searchItems_pruneItems s entries rel results]
theorem searchItems_pruneItems (s : Search) : ∀ (entries : List Node) (rel : Str)
    (results : List SearchResult),
    searchItems s (pruneItems entries) rel results = searchItems s entries rel results
  | [], rel, results => by simp [pruneItems]
  | item :: rest, rel, results => by
    simp only [pruneItems, searchItems, searchItem_pruneItem s item rel results]
    split
    · rfl
    · split
      · rfl
      · exact searchItems_pruneItems s rest rel _
theorem searchItem_pruneItem (s : Search) : ∀ (item : Node) (rel : Str)
    (results : List SearchResult),
    searchItem s (pruneItem item) rel results = searchItem s item rel results
  | .directory name listing, rel, results => by
    by_cases hp : name ∈ prunedNames
    · simp [pruneItem, searchItem, hp]
    · simp [pruneItem, searchItem, hp, searchInDirectory_pruneListing s listing]
  | .file name content, rel, results => by simp [pruneItem]
  | .other name, rel, results => by simp [pruneItem]
end

theorem relativePath_entry (segs : List Str) (name : Str)
    (h : ∀ seg ∈ segs, isPlainEntryName seg = true) (hname : isPlainEntryName name = true) :
    toForwardSlashes (join [joinWith '/' segs, name]) = joinWith '/' (segs ++ [name]) := by
  have hall : ∀ seg ∈ segs ++ [name], isPlainEntryName seg = true := by
    intro seg hs
    rcases List.mem_append.mp hs with hs | hs
    · exact h seg hs
    · rw [List.mem_singleton.mp hs]; exact hname
  have hentry : ∀ seg, isPlainEntryName seg = true → isEntryName seg = true := by
    intro seg hs; simp [isPlainEntryName] at hs; exact hs.1
  rw [join_entry segs name (fun seg hs => hentry seg (h seg hs)) (hentry name hname)]
  apply toForwardSlashes_of_not_mem
  intro hmem
  rcases mem_joinWith _ _ _ hmem with hc | ⟨seg, hs, hc⟩
  · exact absurd hc (by decide)
  · have := hall seg hs
    simp [isPlainEntryName] at this
    exact this.2 hc

theorem directoryComponents_joinWith (segs : List Str) (name : Str)
    (h : ∀ seg ∈ segs, isPlainEntryName seg = true) (hname : isPlainEntryName name = true) :
    directoryComponents (joinWith '/' (segs ++ [name])) = segs := by
  have hslash : ∀ seg ∈ segs ++ [name], '/' ∉ seg := by
    intro seg hs
    have h1 : isPlainEntryName seg = true := by
      rcases List.mem_append.mp hs with hs | hs
      · exact h seg hs
      · rw [List.mem_singleton.mp hs]; exact hname
    simp [isPlainEntryName, isEntryName] at h1
    exact h1.1.2
  rw [directoryComponents, splitOnChar_joinWith _ _ (by simp) hslash, List.dropLast_concat]

theorem file_of_mem_fileMatches (s : Criteria) (content : Option Str) (path : Str)
    (r : SearchResult) (h : r ∈ fileMatches s content path) : r.file = path := by
  unfold fileMatches at h
  split at h
  · obtain ⟨i, line, _, _, hr⟩ := (mem_matchingLines _ _ _ _ _ _).mp h
    rw [hr]
  · simp at h

mutual
theorem searchInDirectory_components (s : Search) : ∀ (listing : Listing) (segs : List Str)
    (results rs : List SearchResult), listingNamesAll isPlainEntryName listing = true →
    (∀ seg ∈ segs, isPlainEntryName seg = true ∧ seg ∉ prunedNames) →
    (∀ r ∈ results, ∀ c ∈ directoryComponents r.file, c ∉ prunedNames) →
    searchInDirectory s listing (joinWith '/' segs) results = .ok rs →
    ∀ r ∈ rs, ∀ c ∈ directoryComponents r.file, c ∉ prunedNames
  | .fails err, segs, results, rs, _, _, hres, h => by
    unfold searchInDirectory at h
    split at h
    · simp only [pure, Except.pure, Except.ok.injEq] at h; subst h; exact hres
    · simp [throw, throwThe, MonadExceptOf.throw] at h
  | .items entries, segs, results, rs, hn, hsegs, hres, h => by
    unfold searchInDirectory at h
    split at h
    · simp only [pure, Except.pure, Except.ok.injEq] at h; subst h; exact hres
    · exact searchItems_components s entries segs results rs
        (by simpa [listingNamesAll] using hn) hsegs hres h
theorem searchItems_components (s : Search) : ∀ (entries : List Node) (segs : List Str)
    (results rs : List SearchResult), itemsNamesAll isPlainEntryName entries = true →
    (∀ seg ∈ segs, isPlainEntryName seg = true ∧ seg ∉ prunedNames) →
    (∀ r ∈ results, ∀ c ∈ directoryComponents r.file, c ∉ prunedNames) →
    searchItems s entries (joinWith '/' segs) results = .ok rs →
    ∀ r ∈ rs, ∀ c ∈ directoryComponents r.file, c ∉ prunedNames
  | [], segs, results, rs, _, _, hres, h => by
    simp only [searchItems, pure, Except.pure, Except.ok.injEq] at h; subst h; exact hres
  | item :: rest, segs, results, rs, hn, hsegs, hres, h => by
    simp only [itemsNamesAll, Bool.and_eq_true] at hn
    unfold searchItems at h
    split at h
    · simp only [pure, Except.pure, Except.ok.injEq] at h; subst h; exact hres
    · split at h
      · simp [throw, throwThe, MonadExceptOf.throw] at h
      · rename_i mid hmid
        have h1 := searchItem_components s item segs results mid hn.1 hsegs hres hmid
        exact searchItems_components s rest segs mid rs hn.2 hsegs h1 h
theorem searchItem_components (s : Search) : ∀ (item : Node) (segs : List Str)
    (results rs : List SearchResult), itemNamesAll isPlainEntryName item = true →
    (∀ seg ∈ segs, isPlainEntryName seg = true ∧ seg ∉ prunedNames) →
    (∀ r ∈ results, ∀ c ∈ directoryComponents r.file, c ∉ prunedNames) →
    searchItem s item (joinWith '/' segs) results = .ok rs →
    ∀ r ∈ rs, ∀ c ∈ directoryComponents r.file, c ∉ prunedNames
  | .directory name listing, segs, results, rs, hn, hsegs, hres, h => by
    simp only [itemNamesAll, Bool.and_eq_true] at hn
    by_cases hp : name ∈ prunedNames
    · simp [searchItem, hp, pure, Except.pure] at h
      subst h; exact hres
    · have hc : (!prunedNames.contains name) = true := by simpa using hp
      simp only [searchItem, if_pos hc] at h
      rw [relativePath_entry segs name (fun seg hs => (hsegs seg hs).1) hn.1] at h
      refine searchInDirectory_components s listing (segs ++ [name]) results rs hn.2 ?_ hres h
      intro seg hs
      rcases List.mem_append.mp hs with hs | hs
      · exact hsegs seg hs
      · rw [List.mem_singleton.mp hs]; exact ⟨hn.1, hp⟩
  | .file name content, segs, results, rs, hn, hsegs, hres, h => by
    simp only [itemNamesAll] at hn
    have hpath := relativePath_entry segs name (fun seg hs => (hsegs seg hs).1) hn
    have hfile : ∀ r ∈ searchFileContent s content (joinWith '/' (segs ++ [name])) results,
        ∀ c ∈ directoryComponents r.file, c ∉ prunedNames := by
      intro r hr c hc
      rw [searchFileContent_eq] at hr
      rcases List.mem_append.mp hr with hr | hr
      · exact hres r hr c hc
      · have hf := file_of_mem_fileMatches _ _ _ _ (List.mem_of_mem_take hr)
        rw [hf, directoryComponents_joinWith segs name (fun seg hs => (hsegs seg hs).1) hn]
          at hc
        exact (hsegs c hc).2
    unfold searchItem at h
    simp only [hpath] at h
    split at h
    · simp [throw, throwThe, MonadExceptOf.throw] at h
    · simp only [pure, Except.pure, Except.ok.injEq] at h; subst h; exact hres
    · simp only [pure, Except.pure, Except.ok.injEq] at h; subst h; exact hfile
  | .other name, segs, results, rs, _, _, hres, h => by
    simp only [searchItem, pure, Except.pure, Except.ok.injEq] at h; subst h; exact hres
end

/-- C4, as the code has it: what lies inside a pruned directory has no effect on
the result of `searchFiles`, so a file inside one is never reported; and when no
name in the tree contains a backslash, no reported path has a directory
component named `node_modules`, `.git`, `dist`, `build` or `.next`. -/
theorem searchFiles_prunes (hostRegExp : Str → Except Thrown (Str → Bool))
    (toLowerCase : Str → Str) (root : Listing) (query : Option Str)
    (filePattern : Option Str) (maxResults : Option Nat) :
    searchFiles hostRegExp toLowerCase (pruneListing root) query filePattern maxResults
      = searchFiles hostRegExp toLowerCase root query filePattern maxResults ∧
    (listingNamesAll isPlainEntryName root = true →
      ∀ results,
        searchFiles hostRegExp toLowerCase root query filePattern maxResults = .ok results →
        ∀ r ∈ results, ∀ c ∈ directoryComponents r.file, c ∉ prunedNames) := by
  refine ⟨searchInDirectory_pruneListing _ root [] [], ?_⟩
  intro hn results h
  exact searchInDirectory_components _ root [] [] results hn (by simp) (by simp) h

/-- C4, against the claim: below a directory named `x\dist`, which is not
pruned, a matching file is reported with the path `x/dist/f.txt`, and the
directory component `dist` of that path is one of the pruned names. -/
theorem searchFiles_reports_pruned_component :
    searchFiles rejectAll latin1ToLowerCase
        (.items [.directory "x\\dist".toList
          (.items [.file "f.txt".toList (some "hello".toList)])])
        (some "hello".toList) none none
      = .ok [⟨"x/dist/f.txt".toList, 1, "hello".toList⟩] ∧
    "dist".toList ∈ directoryComponents "x/dist/f.txt".toList ∧
    "dist".toList ∈ prunedNames := by
  refine ⟨by rfl, by decide, by decide⟩

/-! ### Listing a directory -/

theorem relativeTo_resolved (root name : Str) (rootSegs relSegs : List Str)
    (hroot : normalizeSegments false (splitOnChar '/' root) = rootSegs)
    (hplain : ∀ seg ∈ rootSegs ++ relSegs, isPlain seg = true)
    (hslash : ∀ seg ∈ rootSegs ++ relSegs, '/' ∉ seg) (hname : isEntryName name = true) :
    relativeTo root (('/' :: joinWith '/' (rootSegs ++ relSegs)) ++ '/' :: name)
      = some (joinWith '/' (relSegs ++ [name])) := by
  have hne := (isEntryName_iff name).mp hname
  have h1 : normalizeSegments false
      (splitOnChar '/' (('/' :: joinWith '/' (rootSegs ++ relSegs)) ++ '/' :: name))
      = rootSegs ++ (relSegs ++ [name]) := by
    rw [splitOnChar_append, splitOnChar_of_not_mem _ _ hne.2, normalizeSegments_snoc _ _ _ hne.1,
      normalizeSegments_of_resolved _ hplain hslash, List.append_assoc]
  have h2 : rootSegs.isPrefixOf (rootSegs ++ (relSegs ++ [name])) = true := by
    rw [List.isPrefixOf_iff_prefix]; exact List.prefix_append _ _
  simp only [relativeTo, hroot, h1, h2, if_true, List.drop_left]

/-- C8, as the code has it: for a relative path (absent or empty for the root)
that the resolver accepts, that does not climb above where it starts and that
names an existing directory, `listDirectory` builds one entry for each child,
in the order of the enumeration, with the name of the child, the type
`directory` for a directory and `file` otherwise, and as path the path of the
child relative to the repository root with every backslash written as a forward
slash. -/
theorem listDirectoryEntries_eq {σ : Type} (host : Host σ) (srv : Server) (st : σ)
    (p : Option Str) (fullPath : Str) (items : List Node)
    (hroot : srv.repoPath.head? = some '/')
    (hrel : (orElse p ['.']).head? ≠ some '/')
    (hup : ['.', '.'] ∉ normalizeSegments true (splitOnChar '/' (orElse p ['.'])))
    (hacc : getAbsolutePath srv (orElse p ['.']) = .ok fullPath)
    (hex : host.pathExists st fullPath = true)
    (hdir : host.readdir st fullPath = .items items)
    (hnames : ∀ item ∈ items, isEntryName item.name = true) :
    listDirectoryEntries host srv st p = .ok (items.map fun c =>
      { name := c.name
        type := if c.isDirectory then "directory".toList else "file".toList
        path := toForwardSlashes
          ((relativeTo srv.repoPath (fullPath ++ '/' :: c.name)).getD []) }) ∧
    ∀ c ∈ items, (relativeTo srv.repoPath (fullPath ++ '/' :: c.name)).isSome = true := by
  have hq : orElse p ['.'] ≠ [] := by
    cases p with
    | none => simp [orElse]
    | some q => by_cases h : q = [] <;> simp [orElse, h]
  have hfull : fullPath = resolve srv.cwd [srv.repoPath, orElse p ['.']] := by
    unfold getAbsolutePath at hacc
    dsimp only at hacc
    split at hacc
    · simp [throw, throwThe, MonadExceptOf.throw] at hacc
    · simp only [pure, Except.pure, Except.ok.injEq] at hacc
      exact hacc.symm
  rw [resolve_relative _ _ _ hroot hq hrel hup] at hfull
  have hplain : ∀ seg ∈ normalizeSegments false (splitOnChar '/' srv.repoPath)
      ++ normalizeSegments true (splitOnChar '/' (orElse p ['.'])), isPlain seg = true := by
    intro seg hs
    rcases List.mem_append.mp hs with hs | hs
    · obtain ⟨_, h1, h2, h3⟩ := mem_normalizeSegments _ _ _ hs
      simp [isPlain, h1, h2, h3 rfl]
    · obtain ⟨_, h1, h2, _⟩ := mem_normalizeSegments _ _ _ hs
      have h3 : seg ≠ ['.', '.'] := fun e => hup (e ▸ hs)
      simp [isPlain, h1, h2, h3]
  have hslash : ∀ seg ∈ normalizeSegments false (splitOnChar '/' srv.repoPath)
      ++ normalizeSegments true (splitOnChar '/' (orElse p ['.'])), '/' ∉ seg := by
    intro seg hs
    rcases List.mem_append.mp hs with hs | hs
    · exact not_mem_of_mem_splitOnChar _ _ seg (mem_normalizeSegments _ _ _ hs).1
    · exact not_mem_of_mem_splitOnChar _ _ seg (mem_normalizeSegments _ _ _ hs).1
  have hrelTo : ∀ c ∈ items, relativeTo srv.repoPath (fullPath ++ '/' :: c.name)
      = some (joinWith '/'
          (normalizeSegments true (splitOnChar '/' (orElse p ['.'])) ++ [c.name])) := by
    intro c hc
    rw [hfull]
    exact relativeTo_resolved _ _ _ _ rfl hplain hslash (hnames c hc)
  refine ⟨?_, fun c hc => by rw [hrelTo c hc]; rfl⟩
  have hlist : listDirectoryEntries host srv st p = .ok (items.map (toDirectoryEntry p)) := by
    simp [listDirectoryEntries, hacc, hex, hdir, pure, Except.pure]
  rw [hlist]
  congr 1
  apply List.map_congr_left
  intro c hc
  simp only [toDirectoryEntry, hrelTo c hc, Option.getD_some,
    entryPath_eq p c.name hrel (hnames c hc)]

theorem listDirectoryEntries_eq_witness :
    listDirectoryEntries
        (constantHost (.items [.file "a.txt".toList none, .directory "b".toList (.items [])]))
        { repoPath := "/r".toList, cwd := "/".toList } () none
      = .ok ([Node.file "a.txt".toList none, Node.directory "b".toList (.items [])].map fun c =>
        { name := c.name
          type := if c.isDirectory then "directory".toList else "file".toList
          path := toForwardSlashes
            ((relativeTo "/r".toList ("/r".toList ++ '/' :: c.name)).getD []) }) ∧
    ∀ c ∈ [Node.file "a.txt".toList none, Node.directory "b".toList (.items [])],
      (relativeTo "/r".toList ("/r".toList ++ '/' :: c.name)).isSome = true :=
  listDirectoryEntries_eq
    (constantHost (.items [.file "a.txt".toList none, .directory "b".toList (.items [])]))
    { repoPath := "/r".toList, cwd := "/".toList } () none "/r".toList _
    (by rfl) (by decide) (by decide) (by rfl) (by rfl) (by rfl) (by decide)

/-- The example of the specification: a root with the file `a.txt` and the
directory `b` is listed as two entries with the paths `a.txt` and `b`. -/
theorem listDirectoryEntries_example :
    listDirectoryEntries
        (constantHost (.items [.file "a.txt".toList none, .directory "b".toList (.items [])]))
        { repoPath := "/r".toList, cwd := "/".toList } () none
      = .ok [⟨"a.txt".toList, "file".toList, "a.txt".toList⟩,
          ⟨"b".toList, "directory".toList, "b".toList⟩] := by
  rfl

/-- C8, against the claim: the absolute path `/r/sub` is accepted by the
resolver of the root `/r`, and the entry of the child `a.txt` has the path
`/r/sub/a.txt`, whereas the path of that child relative to the root is
`sub/a.txt`. -/
theorem listDirectoryEntries_absolute_path :
    getAbsolutePath { repoPath := "/r".toList, cwd := "/".toList } "/r/sub".toList
      = .ok "/r/sub".toList ∧
    listDirectoryEntries (constantHost (.items [.file "a.txt".toList none]))
        { repoPath := "/r".toList, cwd := "/".toList } () (some "/r/sub".toList)
      = .ok [⟨"a.txt".toList, "file".toList, "/r/sub/a.txt".toList⟩] ∧
    relativeTo "/r".toList "/r/sub/a.txt".toList = some "sub/a.txt".toList := by
  refine ⟨by rfl, by rfl, by rfl⟩

theorem searchFiles_prunes_witness :
    searchFiles rejectAll latin1ToLowerCase (pruneListing (.items [.directory "dist".toList
        (.items [.file "a.txt".toList (some "hello".toList)]),
        .file "b.txt".toList (some "hello".toList)]))
        (some "hello".toList) none none
      = searchFiles rejectAll latin1ToLowerCase (.items [.directory "dist".toList
        (.items [.file "a.txt".toList (some "hello".toList)]),
        .file "b.txt".toList (some "hello".toList)])
        (some "hello".toList) none none ∧
    ∀ r ∈ [(⟨"b.txt".toList, 1, "hello".toList⟩ : SearchResult)],
      ∀ c ∈ directoryComponents r.file, c ∉ prunedNames :=
  ⟨(searchFiles_prunes rejectAll latin1ToLowerCase _ _ none none).1,
    (searchFiles_prunes rejectAll latin1ToLowerCase (.items [.directory "dist".toList
        (.items [.file "a.txt".toList (some "hello".toList)]),
        .file "b.txt".toList (some "hello".toList)])
      (some "hello".toList) none none).2 (by rfl) _ (by rfl)⟩

end RepoMcp
